import Mathlib

/-!
Verification of the Lights Out solver in `src/puzzle/lights_out.py`
(class `LightsOutSolver`).

Shallow embedding conventions:
* a Python grid (`List[List[int]]`) is a `List (List Int)`;
* Python integers are `Int`; numpy integer arrays are `List Int` /
  `List (List Int)` and `% 2` is `Int.emod` (the sign conventions agree
  for the positive modulus 2);
* Python list indexing, including negative-index wraparound, is modelled
  by `pyIdx`; an `IndexError` is modelled as `Option.none`;
* the numpy global random generator is modelled by an explicit stream of
  raw draws (`Nat → Nat`); `np.random.seed` replaces the ambient stream
  by a stream determined by the seed.
-/

namespace LightsOut

/-- Python `List[List[int]]` grid. -/
abbrev Grid := List (List Int)

/-- Total cell access: `grid[i][j]` with default `0` (used only at
in-bounds indices in the theorems). -/
def cellv (g : Grid) (i j : Nat) : Int := (g.getD i []).getD j 0

/-- The grid is a well-formed `n` by `n` matrix. -/
def Wf (n : Nat) (g : Grid) : Prop := g.length = n ∧ ∀ r ∈ g, r.length = n

/-- Every cell of the grid is `0` or `1`. -/
def Bits (g : Grid) : Prop := ∀ r ∈ g, ∀ v ∈ r, v = 0 ∨ v = 1

instance (n : Nat) (g : Grid) : Decidable (Wf n g) := by
  unfold Wf; infer_instance

instance (g : Grid) : Decidable (Bits g) := by
  unfold Bits; infer_instance

/-- The toggle list built by both `apply_move` and
`_build_transition_matrix` (`lights_out.py` lines 37-47 and 146-156):
the pressed cell plus its existing orthogonal neighbors, guarded by the
same four comparisons as the Python code. -/
def toggles (size row col : Int) : List (Int × Int) :=
  [(row, col)]
    ++ (if 0 < row then [(row - 1, col)] else [])
    ++ (if row < size - 1 then [(row + 1, col)] else [])
    ++ (if 0 < col then [(row, col - 1)] else [])
    ++ (if col < size - 1 then [(row, col + 1)] else [])

/-- Python list-index resolution: an index `i` into a list of length
`len` resolves to `i` when `0 ≤ i < len`, to `len + i` when
`-len ≤ i < 0`, and raises `IndexError` (here `none`) otherwise. -/
def pyIdx (len : Nat) (i : Int) : Option Nat :=
  if 0 ≤ i ∧ i < (len : Int) then some i.toNat
  else if -(len : Int) ≤ i ∧ i < 0 then some (i + len).toNat
  else none

/-- One statement `new_grid[r][c] = 1 - new_grid[r][c]` of `apply_move`,
with Python indexing on both levels. -/
def toggleCell (g : Grid) (r c : Int) : Option Grid := do
  let ri ← pyIdx g.length r
  let rowL := g.getD ri []
  let ci ← pyIdx rowL.length c
  some (g.set ri (rowL.set ci (1 - rowL.getD ci 0)))

/-- `LightsOutSolver.apply_move` (lines 134-161): copies the grid (the
copy is implicit in the functional embedding) and toggles the pressed
cell and its existing orthogonal neighbors.  `none` models an
uncaught `IndexError`. -/
def apply_move (size : Nat) (grid : Grid) (row col : Int) : Option Grid :=
  (toggles (size : Int) row col).foldlM (fun g rc => toggleCell g rc.1 rc.2) grid

/-- `LightsOutSolver.is_solved` (lines 163-172): all lights off. -/
def is_solved (grid : Grid) : Bool :=
  grid.all (fun row => row.all (fun v => v == 0))

/-- Sequential application of a list of `(row, col)` presses via
`apply_move`, as done by the test suite and by callers of `solve`. -/
def applyMoves (size : Nat) (g : Grid) (ms : List (Nat × Nat)) : Option Grid :=
  ms.foldlM (fun g m => apply_move size g (m.1 : Int) (m.2 : Int)) g

/-- The result grid of one `toggleCell` at in-bounds nonnegative indices. -/
def toggledGrid (g : Grid) (r c : Int) : Grid :=
  g.set r.toNat ((g.getD r.toNat []).set c.toNat (1 - (g.getD r.toNat []).getD c.toNat 0))

/-- Cell `(i, j)` is the pressed cell `(row, col)` or one of its
orthogonal neighbors (the neighbor exists whenever `i, j` are in
`[0, size)`, which all uses of this predicate require). -/
def PressTarget (size : Nat) (row col : Int) (i j : Nat) : Prop :=
  ((i : Int) = row ∧ (j : Int) = col) ∨
  ((j : Int) = col ∧ ((i : Int) = row - 1 ∨ (i : Int) = row + 1)) ∨
  ((i : Int) = row ∧ ((j : Int) = col - 1 ∨ (j : Int) = col + 1))

instance (size : Nat) (row col : Int) (i j : Nat) :
    Decidable (PressTarget size row col i j) := by
  unfold PressTarget; infer_instance

/-- `LightsOutSolver._pos_to_idx` (lines 20-22): `row * size + col`,
applied in `_build_transition_matrix` to toggle coordinates (always
nonnegative there). -/
def pos_to_idx (size : Nat) (r c : Int) : Nat := (r * size + c).toNat

/-- `LightsOutSolver._idx_to_pos` (lines 24-26): `(idx // size, idx % size)`. -/
def idx_to_pos (size : Nat) (idx : Nat) : Nat × Nat := (idx / size, idx % size)

/-- Row `i` of the transition matrix: starts as zeros and gets a `1`
written at the linear index of each cell toggled by pressing cell `i`. -/
def buildRow (size i : Nat) : List Int :=
  (toggles (size : Int) ((idx_to_pos size i).1 : Int) ((idx_to_pos size i).2 : Int)).foldl
    (fun acc p => acc.set (pos_to_idx size p.1 p.2) 1)
    (List.replicate (size * size) (0 : Int))

/-- `LightsOutSolver._build_transition_matrix` (lines 27-52): an
n² by n² 0/1 integer matrix; each row is built by writing 1s into a row
of zeros (the toggle guard pattern is the same as in `apply_move`,
shared here via `toggles`). -/
def build_transition_matrix (size : Nat) : List (List Int) :=
  (List.range (size * size)).map (buildRow size)

/-- Elementwise `(a + b) % 2` of two numpy integer rows
(`M[r] = (M[r] + M[row]) % 2`, line 110). -/
def rowAdd (a b : List Int) : List Int := List.zipWith (fun u v => (u + v) % 2) a b

/-- Pivot search (lines 97-103): the first `r` in `[row, n)` with
`M[r][col] == 1`, if any. -/
def findPivot (M : List (List Int)) (row col n : Nat) : Option Nat :=
  (List.range' row (n - row)).find? (fun r => (M.getD r []).getD col 0 == 1)

/-- Row swap `M[[row, pivot]] = M[[pivot, row]]` (line 106). -/
def swapRows (M : List (List Int)) (i j : Nat) : List (List Int) :=
  (M.set i (M.getD j [])).set j (M.getD i [])

/-- The elimination inner loop body (lines 108-111), recursing over the
rows while carrying the current row index `s`: every row other than
`rowIdx` with a 1 in column `col` gets the pivot row `p` added mod 2. -/
def elimRowsAux (p : List Int) (rowIdx col : Nat) : Nat → List (List Int) → List (List Int)
  | _, [] => []
  | s, r :: rs =>
    (if s ≠ rowIdx ∧ r.getD col 0 = 1 then rowAdd r p else r) ::
      elimRowsAux p rowIdx col (s + 1) rs

/-- `for r in range(n): if r != row and M[r, col] == 1: M[r] = (M[r] + M[row]) % 2`.
The pivot row `M[rowIdx]` is read once; it is never modified by the loop. -/
def eliminateOthers (M : List (List Int)) (rowIdx col : Nat) : List (List Int) :=
  elimRowsAux (M.getD rowIdx []) rowIdx col 0 M

/-- One column step of forward elimination (lines 96-116). -/
def elimStep (n : Nat) (st : List (List Int) × Nat) (col : Nat) : List (List Int) × Nat :=
  match findPivot st.1 st.2 col n with
  | none => st
  | some p => (eliminateOthers (swapRows st.1 st.2 p) st.2 col, st.2 + 1)

/-- Forward elimination (lines 94-116): fold over columns `0..n-1`;
returns the reduced matrix and the final pivot-row counter (the rank). -/
def eliminate (n : Nat) (M : List (List Int)) : List (List Int) × Nat :=
  (List.range n).foldl (elimStep n) (M, 0)

/-- `eliminate`, additionally recording the pivot column of each
successful step (used only by statements and proofs; the code does not
store pivots). -/
def elimStepP (n : Nat) (st : (List (List Int) × Nat) × List Nat) (col : Nat) :
    (List (List Int) × Nat) × List Nat :=
  match findPivot st.1.1 st.1.2 col n with
  | none => st
  | some p =>
    ((eliminateOthers (swapRows st.1.1 st.1.2 p) st.1.2 col, st.1.2 + 1), st.2 ++ [col])

def eliminateP (n : Nat) (M : List (List Int)) : (List (List Int) × Nat) × List Nat :=
  (List.range n).foldl (elimStepP n) ((M, 0), [])

/-- Consistency check (lines 118-121): some row at index `rank` or
beyond has augmented entry 1 (`M[r, -1] == 1`, i.e. index `n`) and an
all-zero coefficient part (`M[r, :-1]`, i.e. `dropLast`). -/
def inconsistentCheck (n rank : Nat) (M : List (List Int)) : Bool :=
  (List.range' rank (n - rank)).any (fun r =>
    ((M.getD r []).getD n 0 == 1) && ((M.getD r []).dropLast.all (fun v => v == 0)))

/-- One iteration of the back-substitution loop (lines 126-131): pivot
rows `i < rank` write their augmented entry at their first coefficient
column holding a 1 (`np.where(M[i, :-1] == 1)[0][0]`), if any. -/
def backSubStep (n rank : Nat) (M : List (List Int)) (x : List Int) (i : Nat) : List Int :=
  if i < rank then
    match ((M.getD i []).dropLast).findIdx? (fun v => v == 1) with
    | some p => x.set p ((M.getD i []).getD n 0)
    | none => x
  else x

/-- Back substitution (lines 123-131): start from the zero vector and
run the loop body over `i in range(n)`. -/
def backSub (n rank : Nat) (M : List (List Int)) : List Int :=
  (List.range n).foldl (backSubStep n rank M) (List.replicate n (0 : Int))

/-- `LightsOutSolver._solve_gf2` (lines 81-132): augment (`np.hstack`),
eliminate, check consistency, back-substitute. -/
def solve_gf2 (A : List (List Int)) (b : List Int) : Option (List Int) :=
  let n := b.length
  let M0 := List.zipWith (fun r v => r ++ [v]) A b
  let res := eliminate n M0
  if inconsistentCheck n res.2 res.1 then none
  else some (backSub n res.2 res.1)

/-- `LightsOutSolver.solve` (lines 54-79): flatten the grid row-major
(`np.array(grid).flatten()`), build the transition matrix, solve over
GF(2), and turn the set bits of the solution vector into `(row, col)`
pairs in ascending index order (`enumerate`). -/
def solve (size : Nat) (grid : Grid) : Option (List (Nat × Nat)) :=
  let b := grid.join
  let A := build_transition_matrix size
  match solve_gf2 A b with
  | none => none
  | some x =>
    some ((x.enum.filter (fun p => p.2 == 1)).map (fun p => idx_to_pos size p.1))

/-- Model of numpy's seeded global pseudo-random generator.  A generator
state is the stream of raw draws it will produce (`Nat → Nat`);
`npSeedStream s` models the state after `np.random.seed(s)`: a stream
that is a fixed deterministic function of the seed alone (numpy's
Mersenne Twister is external library code; the concrete stream function
is irrelevant to the claims — C2 is proved for every stream and C9 only
uses that the stream depends on the seed alone). -/
def npSeedStream (s : Nat) : Nat → Nat := fun k => s + 2654435761 * k

/-- `np.random.randint(low, high)`: a draw in `[low, high)` obtained
from one raw stream value. -/
def randint (low high v : Nat) : Nat := low + v % (high - low)

/-- `LightsOutSolver.generate_random_puzzle` (lines 174-195): if a seed
is given, reseed the global generator (discarding the ambient state
`g0`); draw `num_moves = randint(1, n²+1)`; start from the all-off grid
and apply `num_moves` presses at `randint(0, size)` coordinates via
`apply_move`.  Returns the grid (`none` would model an `IndexError`,
which never occurs) together with the advanced generator state. -/
def generate_random_puzzle (size : Nat) (seed : Option Nat) (g0 : Nat → Nat) :
    Option Grid × (Nat → Nat) :=
  let st := match seed with
    | some s => npSeedStream s
    | none => g0
  let n := size * size
  let num_moves := randint 1 (n + 1) (st 0)
  let init : Grid := List.replicate size (List.replicate size (0 : Int))
  let res := (List.range num_moves).foldlM (fun g k =>
    apply_move size g ((randint 0 size (st (1 + 2 * k)) : Nat) : Int)
      ((randint 0 size (st (2 + 2 * k)) : Nat) : Int)) init
  (res, fun k => st (k + (1 + 2 * num_moves)))

/-- GF(2) value of a matrix entry: the `% 2` integer arithmetic of the
code is reflected through the ring homomorphism `Int → ZMod 2`. -/
def rowSum (r : List Int) (n : Nat) (x : Nat → ZMod 2) : ZMod 2 :=
  ∑ c ∈ Finset.range n, ((r.getD c 0 : Int) : ZMod 2) * x c

/-- `x` satisfies the GF(2) equation of the augmented row `r`
(coefficients at positions `0..n-1`, right-hand side at position `n`). -/
def SatRow (r : List Int) (n : Nat) (x : Nat → ZMod 2) : Prop :=
  rowSum r n x = ((r.getD n 0 : Int) : ZMod 2)

/-- `x` satisfies every row of the augmented matrix `M`. -/
def Sat (n : Nat) (M : List (List Int)) (x : Nat → ZMod 2) : Prop :=
  ∀ r ∈ M, SatRow r n x

/-- Invariant of forward elimination after processing columns `[0, c)`:
`M` is the current augmented matrix, `rank` the pivot-row counter and
`ps` the pivot columns found so far (one per pivot row, in order). -/
structure ElimInv (n c : Nat) (M : List (List Int)) (rank : Nat) (ps : List Nat) : Prop where
  len : M.length = n
  rowlen : ∀ r ∈ M, r.length = n + 1
  bits : ∀ r ∈ M, ∀ v ∈ r, v = 0 ∨ v = 1
  rank_le_c : rank ≤ c
  rank_le_n : rank ≤ n
  ps_len : ps.length = rank
  ps_lt : ∀ p ∈ ps, p < c
  ps_mono : ps.Pairwise (· < ·)
  pivot_one : ∀ i, i < rank → cellv M i (ps.getD i 0) = 1
  pivot_col : ∀ i, i < rank → ∀ r, r < n → r ≠ i → cellv M r (ps.getD i 0) = 0
  left_zero : ∀ i, i < rank → ∀ k, k < ps.getD i 0 → cellv M i k = 0
  below_zero : ∀ r, rank ≤ r → r < n → ∀ k, k < c → cellv M r k = 0

/-- `x` is a GF(2) solution of the linear system `A x = b` (entries read
through the `Int → ZMod 2` cast). -/
def SysSat (n : Nat) (A : List (List Int)) (b : List Int) (x : Nat → ZMod 2) : Prop :=
  ∀ r, r < n →
    (∑ c ∈ Finset.range n, ((cellv A r c : Int) : ZMod 2) * x c) =
      ((b.getD r 0 : Int) : ZMod 2)

/-! ### Basic list lemmas used throughout -/

theorem getD_oob {α : Type} (l : List α) (i : Nat) (d : α)
    (h : l.length ≤ i) : l.getD i d = d := by
  induction l generalizing i with
  | nil => simp [List.getD]
  | cons a t ih =>
    cases i with
    | zero => simp at h
    | succ k => simpa [List.getD] using ih k (by simpa using h)

theorem getD_mem {α : Type} (l : List α) (i : Nat) (d : α)
    (h : i < l.length) : l.getD i d ∈ l := by
  induction l generalizing i with
  | nil => simp at h
  | cons a t ih =>
    cases i with
    | zero => simp [List.getD]
    | succ k =>
      simp only [List.getD_cons_succ]
      exact List.mem_cons_of_mem _ (ih k (by simpa using h))

theorem getD_set_eq {α : Type} (l : List α) (i : Nat) (a d : α)
    (h : i < l.length) : (l.set i a).getD i d = a := by
  induction l generalizing i with
  | nil => simp at h
  | cons x t ih =>
    cases i with
    | zero => simp [List.getD]
    | succ k => simpa [List.getD] using ih k (by simpa using h)

theorem getD_set_ne {α : Type} (l : List α) (i j : Nat) (a d : α)
    (h : i ≠ j) : (l.set i a).getD j d = l.getD j d := by
  induction l generalizing i j with
  | nil => simp
  | cons x t ih =>
    cases i with
    | zero =>
      cases j with
      | zero => exact absurd rfl h
      | succ k => simp [List.getD]
    | succ m =>
      cases j with
      | zero => simp [List.getD]
      | succ k => simpa [List.getD] using ih m k (fun hmk => h (by simp [hmk]))

theorem getD_append_left {α : Type} (l₁ l₂ : List α) (i : Nat) (d : α)
    (h : i < l₁.length) : (l₁ ++ l₂).getD i d = l₁.getD i d := by
  induction l₁ generalizing i with
  | nil => simp at h
  | cons x t ih =>
    cases i with
    | zero => simp [List.getD]
    | succ k => simpa [List.getD] using ih k (by simpa using h)

theorem getD_append_right {α : Type} (l₁ l₂ : List α) (i : Nat) (d : α)
    (h : l₁.length ≤ i) : (l₁ ++ l₂).getD i d = l₂.getD (i - l₁.length) d := by
  induction l₁ generalizing i with
  | nil => simp
  | cons x t ih =>
    cases i with
    | zero => simp at h
    | succ k => simpa [List.getD] using ih k (by simpa using h)

theorem forall_getD_of_forall_mem {α : Type} {P : α → Prop} {l : List α}
    (h : ∀ a ∈ l, P a) (i : Nat) (d : α) (hi : i < l.length) :
    P (l.getD i d) := h _ (getD_mem l i d hi)

theorem getD_eq_getElem {α : Type} (l : List α) (i : Nat) (d : α)
    (h : i < l.length) : l.getD i d = l[i] := by
  induction l generalizing i with
  | nil => simp at h
  | cons x t ih =>
    cases i with
    | zero => simp [List.getD]
    | succ k => simpa [List.getD] using ih k (by simpa using h)

/-- Two well-formed `n` by `n` grids with equal cells are equal. -/
theorem grid_ext (n : Nat) (g h : Grid) (hg : Wf n g) (hh : Wf n h)
    (hcell : ∀ i j, i < n → j < n → cellv g i j = cellv h i j) : g = h := by
  apply List.ext_getElem (hg.1.trans hh.1.symm)
  intro i h1 h2
  have hgi : g[i] ∈ g := List.getElem_mem h1
  have hhi : h[i] ∈ h := List.getElem_mem h2
  apply List.ext_getElem ((hg.2 _ hgi).trans (hh.2 _ hhi).symm)
  intro j hj1 hj2
  have hin : i < n := by rw [hg.1] at h1; exact h1
  have hjn : j < n := by rw [hg.2 _ hgi] at hj1; exact hj1
  have := hcell i j hin hjn
  unfold cellv at this
  rw [getD_eq_getElem g i [] (by omega : i < g.length),
      getD_eq_getElem h i [] (by omega : i < h.length)] at this
  rwa [getD_eq_getElem _ j 0 (by omega : j < g[i].length),
      getD_eq_getElem _ j 0 (by omega : j < h[i].length)] at this

/-! ### Membership and distinctness of the toggle list -/

theorem mem_if_singleton {α : Type} (p : Prop) [Decidable p] (x a : α) :
    (a ∈ if p then [x] else []) ↔ p ∧ a = x := by
  split_ifs with h <;> simp [h]

theorem mem_toggles_iff (size row col a b : Int) :
    (a, b) ∈ toggles size row col ↔
      (a = row ∧ b = col) ∨
      (0 < row ∧ a = row - 1 ∧ b = col) ∨
      (row < size - 1 ∧ a = row + 1 ∧ b = col) ∨
      (0 < col ∧ a = row ∧ b = col - 1) ∨
      (col < size - 1 ∧ a = row ∧ b = col + 1) := by
  simp only [toggles, List.mem_append, List.mem_singleton, mem_if_singleton,
    Prod.ext_iff, Prod.mk.injEq]
  omega

theorem toggles_nodup (size row col : Int) : (toggles size row col).Nodup := by
  unfold toggles
  split_ifs <;> simp [Prod.ext_iff] <;> omega

/-! ### Single-cell toggle -/

theorem pyIdx_inrange (len : Nat) (i : Int) (h0 : 0 ≤ i) (h : i < (len : Int)) :
    pyIdx len i = some i.toNat := by
  unfold pyIdx
  rw [if_pos ⟨h0, h⟩]

theorem pyIdx_some_lt (len : Nat) (i : Int) (k : Nat)
    (h : pyIdx len i = some k) : k < len := by
  unfold pyIdx at h
  split_ifs at h with h1 h2 <;> simp at h <;> omega

theorem pyIdx_none (len : Nat) (i : Int)
    (h : i < -(len : Int) ∨ (len : Int) ≤ i) : pyIdx len i = none := by
  unfold pyIdx
  rw [if_neg (by omega), if_neg (by omega)]

theorem toggleCell_spec (n : Nat) (g : Grid) (r c : Int) (hw : Wf n g)
    (hr0 : 0 ≤ r) (hr : r < (n : Int)) (hc0 : 0 ≤ c) (hc : c < (n : Int)) :
    ∃ g2, toggleCell g r c = some g2 ∧ Wf n g2 ∧
      ∀ i j, i < n → j < n →
        cellv g2 i j =
          if i = r.toNat ∧ j = c.toNat then 1 - cellv g i j else cellv g i j := by
  have hglen : g.length = n := hw.1
  have hrow : (g.getD r.toNat []).length = n :=
    hw.2 _ (getD_mem g r.toNat [] (by omega))
  have hpr : pyIdx g.length r = some r.toNat := by
    rw [hglen]; exact pyIdx_inrange n r hr0 hr
  have hpc : pyIdx (g.getD r.toNat []).length c = some c.toNat := by
    rw [hrow]; exact pyIdx_inrange n c hc0 hc
  refine ⟨toggledGrid g r c, ?_, ?_, ?_⟩
  · have hpc2 : pyIdx (g[r.toNat]?.getD []).length c = some c.toNat := by
      rw [← List.getD_eq_getElem?_getD]; exact hpc
    simp [toggleCell, toggledGrid, hpr, hpc2]
  · constructor
    · simpa [toggledGrid] using hw.1
    · intro row hrow2
      rcases List.mem_or_eq_of_mem_set hrow2 with h | h
      · exact hw.2 _ h
      · subst h; simpa using hrow
  · intro i j hi hj
    by_cases hir : i = r.toNat
    · subst hir
      unfold cellv toggledGrid
      rw [getD_set_eq _ _ _ _ (by omega)]
      by_cases hjc : j = c.toNat
      · subst hjc
        rw [getD_set_eq _ _ _ _ (by omega)]
        simp [cellv]
      · rw [getD_set_ne _ _ _ _ _ (fun h => hjc h.symm)]
        simp [cellv, hjc]
    · unfold cellv toggledGrid
      rw [getD_set_ne _ _ _ _ _ (fun h => hir h.symm)]
      simp [hir]

theorem toggleCell_some_wf (n : Nat) (g g2 : Grid) (r c : Int) (hw : Wf n g)
    (h : toggleCell g r c = some g2) : Wf n g2 := by
  unfold toggleCell at h
  cases hpr : pyIdx g.length r with
  | none => rw [hpr] at h; simp at h
  | some ri =>
    rw [hpr] at h
    simp only [Option.bind_eq_bind, Option.some_bind] at h
    cases hpc : pyIdx (g.getD ri []).length c with
    | none => rw [hpc] at h; simp at h
    | some ci =>
      rw [hpc] at h
      simp only [Option.some_bind, Option.some.injEq] at h
      subst h
      have hri : ri < g.length := pyIdx_some_lt _ _ _ hpr
      have hrow : (g.getD ri []).length = n := hw.2 _ (getD_mem g ri [] hri)
      constructor
      · simpa using hw.1
      · intro row hrow2
        rcases List.mem_or_eq_of_mem_set hrow2 with h | h
        · exact hw.2 _ h
        · subst h; simpa using hrow

theorem toggleCell_some_bits (g g2 : Grid) (r c : Int) (hb : Bits g)
    (h : toggleCell g r c = some g2) : Bits g2 := by
  unfold toggleCell at h
  cases hpr : pyIdx g.length r with
  | none => rw [hpr] at h; simp at h
  | some ri =>
    rw [hpr] at h
    simp only [Option.bind_eq_bind, Option.some_bind] at h
    cases hpc : pyIdx (g.getD ri []).length c with
    | none => rw [hpc] at h; simp at h
    | some ci =>
      rw [hpc] at h
      simp only [Option.some_bind, Option.some.injEq] at h
      subst h
      have hri : ri < g.length := pyIdx_some_lt _ _ _ hpr
      have hci : ci < (g.getD ri []).length := pyIdx_some_lt _ _ _ hpc
      have hrowmem : g.getD ri [] ∈ g := getD_mem g ri [] hri
      intro row hrow2
      rcases List.mem_or_eq_of_mem_set hrow2 with h | h
      · exact hb _ h
      · subst h
        intro v hv
        rcases List.mem_or_eq_of_mem_set hv with h2 | h2
        · exact hb _ hrowmem _ h2
        · subst h2
          have := hb _ hrowmem _ (getD_mem _ ci 0 hci)
          rcases this with h3 | h3 <;> rw [h3] <;> simp

/-! ### Folding toggles: pointwise characterization of `apply_move` -/

theorem foldToggle_spec (n : Nat) (L : List (Int × Int)) :
    ∀ g : Grid, Wf n g →
    (∀ p ∈ L, 0 ≤ p.1 ∧ p.1 < (n : Int) ∧ 0 ≤ p.2 ∧ p.2 < (n : Int)) → L.Nodup →
    ∃ g2, L.foldlM (fun h rc => toggleCell h rc.1 rc.2) g = some g2 ∧ Wf n g2 ∧
      ∀ i j, i < n → j < n →
        cellv g2 i j =
          if ((i : Int), (j : Int)) ∈ L then 1 - cellv g i j else cellv g i j := by
  induction L with
  | nil => exact fun g hw _ _ => ⟨g, by simp, hw, by simp⟩
  | cons p T ih =>
    intro g hw hb hnd
    have hp := hb p (List.mem_cons_self p T)
    have hT : ∀ q ∈ T, 0 ≤ q.1 ∧ q.1 < (n : Int) ∧ 0 ≤ q.2 ∧ q.2 < (n : Int) :=
      fun q hq => hb q (List.mem_cons_of_mem _ hq)
    obtain ⟨g1, h1, hw1, hcell1⟩ :=
      toggleCell_spec n g p.1 p.2 hw hp.1 hp.2.1 hp.2.2.1 hp.2.2.2
    obtain ⟨g2, h2, hw2, hcell2⟩ := ih g1 hw1 hT (List.Nodup.of_cons hnd)
    refine ⟨g2, ?_, hw2, ?_⟩
    · simp only [List.foldlM_cons]
      rw [h1]
      simpa using h2
    · intro i j hi hj
      have hhead : p ∉ T := (List.nodup_cons.mp hnd).1
      have hQiff : (i = p.1.toNat ∧ j = p.2.toNat) ↔ ((i : Int), (j : Int)) = p := by
        rw [Prod.ext_iff]
        constructor
        · rintro ⟨h1', h2'⟩
          refine ⟨?_, ?_⟩ <;> simp only [] <;> omega
        · rintro ⟨h1', h2'⟩
          simp only [] at h1' h2'
          constructor <;> omega
      rw [hcell2 i j hi hj, hcell1 i j hi hj]
      by_cases hmem : ((i : Int), (j : Int)) ∈ T
      · have hnp : ((i : Int), (j : Int)) ≠ p := fun he => hhead (he ▸ hmem)
        have hnQ : ¬(i = p.1.toNat ∧ j = p.2.toNat) := fun hq => hnp (hQiff.mp hq)
        rw [if_pos hmem, if_neg hnQ, if_pos (List.mem_cons.mpr (Or.inr hmem))]
      · by_cases hQ : i = p.1.toNat ∧ j = p.2.toNat
        · have he : ((i : Int), (j : Int)) = p := hQiff.mp hQ
          rw [if_neg hmem, if_pos hQ, if_pos (List.mem_cons.mpr (Or.inl he))]
        · have hnp : ((i : Int), (j : Int)) ≠ p := fun he => hQ (hQiff.mpr he)
          rw [if_neg hmem, if_neg hQ,
            if_neg (fun hm => (List.mem_cons.mp hm).elim hnp hmem)]

theorem foldToggle_some_bits (L : List (Int × Int)) :
    ∀ g g2 : Grid, Bits g →
    L.foldlM (fun h rc => toggleCell h rc.1 rc.2) g = some g2 → Bits g2 := by
  induction L with
  | nil => intro g g2 hb h; simp at h; exact h ▸ hb
  | cons p T ih =>
    intro g g2 hb h
    simp only [List.foldlM_cons] at h
    cases h1 : toggleCell g p.1 p.2 with
    | none => rw [h1] at h; simp at h
    | some g1 =>
      rw [h1] at h
      simp only [Option.bind_eq_bind, Option.some_bind] at h
      exact ih g1 g2 (toggleCell_some_bits g g1 p.1 p.2 hb h1) (by simpa using h)

theorem toggles_bounds_inrange (n : Nat) (row col : Int)
    (hr0 : 0 ≤ row) (hr : row < (n : Int)) (hc0 : 0 ≤ col) (hc : col < (n : Int)) :
    ∀ p ∈ toggles (n : Int) row col,
      0 ≤ p.1 ∧ p.1 < (n : Int) ∧ 0 ≤ p.2 ∧ p.2 < (n : Int) := by
  rintro ⟨a, b⟩ hp
  rw [mem_toggles_iff] at hp
  simp only []
  omega

theorem mem_toggles_iff_pressTarget (size : Nat) (row col : Int) (i j : Nat)
    (hr0 : 0 ≤ row) (hr : row < (size : Int)) (hc0 : 0 ≤ col) (hc : col < (size : Int))
    (hi : i < size) (hj : j < size) :
    (((i : Int), (j : Int)) ∈ toggles (size : Int) row col) ↔
      PressTarget size row col i j := by
  rw [mem_toggles_iff]
  unfold PressTarget
  omega

/-- Full characterization of a legal `apply_move`: it succeeds, returns a
well-formed grid, and flips exactly the pressed cell and its existing
orthogonal neighbors. -/
theorem apply_move_spec (size : Nat) (g : Grid) (row col : Int) (hw : Wf size g)
    (hr0 : 0 ≤ row) (hr : row < (size : Int)) (hc0 : 0 ≤ col) (hc : col < (size : Int)) :
    ∃ g2, apply_move size g row col = some g2 ∧ Wf size g2 ∧
      ∀ i j, i < size → j < size →
        cellv g2 i j =
          if PressTarget size row col i j then 1 - cellv g i j else cellv g i j := by
  obtain ⟨g2, h, hw2, hcell⟩ :=
    foldToggle_spec size (toggles (size : Int) row col) g hw
      (toggles_bounds_inrange size row col hr0 hr hc0 hc)
      (toggles_nodup _ _ _)
  refine ⟨g2, h, hw2, fun i j hi hj => ?_⟩
  rw [hcell i j hi hj]
  by_cases hP : PressTarget size row col i j
  · rw [if_pos ((mem_toggles_iff_pressTarget size row col i j hr0 hr hc0 hc hi hj).mpr hP),
      if_pos hP]
  · rw [if_neg (fun hm =>
      hP ((mem_toggles_iff_pressTarget size row col i j hr0 hr hc0 hc hi hj).mp hm)),
      if_neg hP]

theorem apply_move_some_bits (size : Nat) (g g2 : Grid) (row col : Int)
    (hb : Bits g) (h : apply_move size g row col = some g2) : Bits g2 :=
  foldToggle_some_bits _ g g2 hb h

/-! ### Success and failure of `apply_move` under Python index wraparound -/

theorem pyIdx_some_of_wrap (len : Nat) (i : Int)
    (h0 : -(len : Int) ≤ i) (h : i < (len : Int)) :
    ∃ k, pyIdx len i = some k ∧ k < len := by
  unfold pyIdx
  split_ifs with h1 h2
  · exact ⟨i.toNat, rfl, by omega⟩
  · exact ⟨(i + len).toNat, rfl, by omega⟩
  · omega

theorem toggleCell_some_of_wrap (n : Nat) (g : Grid) (r c : Int) (hw : Wf n g)
    (hr0 : -(n : Int) ≤ r) (hr : r < (n : Int))
    (hc0 : -(n : Int) ≤ c) (hc : c < (n : Int)) :
    ∃ g2, toggleCell g r c = some g2 ∧ Wf n g2 := by
  obtain ⟨ri, hri, hril⟩ := pyIdx_some_of_wrap n r hr0 hr
  have hglen : g.length = n := hw.1
  have hrowlen : (g.getD ri []).length = n := hw.2 _ (getD_mem g ri [] (by omega))
  obtain ⟨ci, hci, hcil⟩ := pyIdx_some_of_wrap n c hc0 hc
  have hpr : pyIdx g.length r = some ri := by rw [hglen]; exact hri
  have hpc2 : pyIdx (g[ri]?.getD []).length c = some ci := by
    rw [← List.getD_eq_getElem?_getD, hrowlen]; exact hci
  refine ⟨g.set ri ((g.getD ri []).set ci (1 - (g.getD ri []).getD ci 0)), ?_, ?_, ?_⟩
  · simp [toggleCell, hpr, hpc2]
  · simpa using hglen
  · intro row hrow2
    rcases List.mem_or_eq_of_mem_set hrow2 with h | h
    · exact hw.2 _ h
    · subst h
      simpa using hrowlen

theorem toggleCell_none_of_oob (n : Nat) (g : Grid) (r c : Int) (hw : Wf n g)
    (h : r < -(n : Int) ∨ (n : Int) ≤ r ∨ c < -(n : Int) ∨ (n : Int) ≤ c) :
    toggleCell g r c = none := by
  have hglen : g.length = n := hw.1
  by_cases hrin : -(n : Int) ≤ r ∧ r < (n : Int)
  · obtain ⟨ri, hri, hril⟩ := pyIdx_some_of_wrap n r hrin.1 hrin.2
    have hrowlen : (g.getD ri []).length = n := hw.2 _ (getD_mem g ri [] (by omega))
    have hpr : pyIdx g.length r = some ri := by rw [hglen]; exact hri
    have hpc2 : pyIdx (g[ri]?.getD []).length c = none := by
      rw [← List.getD_eq_getElem?_getD, hrowlen]
      exact pyIdx_none n c (by omega)
    simp [toggleCell, hpr, hpc2]
  · have hpr : pyIdx g.length r = none := by
      rw [hglen]; exact pyIdx_none n r (by omega)
    simp [toggleCell, hpr]

theorem foldToggle_some_of_wrap (n : Nat) (L : List (Int × Int)) :
    ∀ g : Grid, Wf n g →
    (∀ p ∈ L, -(n : Int) ≤ p.1 ∧ p.1 < (n : Int) ∧ -(n : Int) ≤ p.2 ∧ p.2 < (n : Int)) →
    ∃ g2, L.foldlM (fun h rc => toggleCell h rc.1 rc.2) g = some g2 ∧ Wf n g2 := by
  induction L with
  | nil => exact fun g hw _ => ⟨g, by simp, hw⟩
  | cons p T ih =>
    intro g hw hb
    have hp := hb p (List.mem_cons_self p T)
    obtain ⟨g1, h1, hw1⟩ :=
      toggleCell_some_of_wrap n g p.1 p.2 hw hp.1 hp.2.1 hp.2.2.1 hp.2.2.2
    obtain ⟨g2, h2, hw2⟩ := ih g1 hw1 (fun q hq => hb q (List.mem_cons_of_mem _ hq))
    refine ⟨g2, ?_, hw2⟩
    simp only [List.foldlM_cons]
    rw [h1]
    simpa using h2

theorem toggles_bounds_wrap (n : Nat) (row col : Int)
    (hr0 : -(n : Int) ≤ row) (hr : row < (n : Int))
    (hc0 : -(n : Int) ≤ col) (hc : col < (n : Int)) :
    ∀ p ∈ toggles (n : Int) row col,
      -(n : Int) ≤ p.1 ∧ p.1 < (n : Int) ∧ -(n : Int) ≤ p.2 ∧ p.2 < (n : Int) := by
  rintro ⟨a, b⟩ hp
  rw [mem_toggles_iff] at hp
  simp only []
  omega

/-- `apply_move` succeeds exactly on coordinates Python indexing accepts:
the interval `[-size, size)` on both axes. -/
theorem apply_move_isSome_iff (size : Nat) (g : Grid) (row col : Int) (hw : Wf size g) :
    (∃ g2, apply_move size g row col = some g2) ↔
      (-(size : Int) ≤ row ∧ row < (size : Int) ∧
        -(size : Int) ≤ col ∧ col < (size : Int)) := by
  constructor
  · rintro ⟨g2, h2⟩
    by_contra hoob
    have hfirst : toggleCell g row col = none :=
      toggleCell_none_of_oob size g row col hw (by omega)
    have : apply_move size g row col = none := by
      simp [apply_move, toggles, List.foldlM_cons, hfirst]
    rw [this] at h2
    exact Option.noConfusion h2
  · rintro ⟨h1, h2, h3, h4⟩
    obtain ⟨g2, hg2, _⟩ :=
      foldToggle_some_of_wrap size (toggles (size : Int) row col) g hw
        (toggles_bounds_wrap size row col h1 h2 h3 h4)
    exact ⟨g2, hg2⟩

/-! ### Claim theorems about `apply_move` -/

/-- C6: pressing the same in-range cell twice restores the original grid:
`apply_move (apply_move g row col) row col = g` for every n by n 0/1
grid `g` and in-range cell. -/
theorem c6_double_press_cancels (size : Nat) (g : Grid) (row col : Int)
    (hw : Wf size g) (hb : Bits g)
    (hr0 : 0 ≤ row) (hr : row < (size : Int)) (hc0 : 0 ≤ col) (hc : col < (size : Int)) :
    ∃ g1, apply_move size g row col = some g1 ∧ apply_move size g1 row col = some g := by
  obtain ⟨g1, h1, hw1, hcell1⟩ := apply_move_spec size g row col hw hr0 hr hc0 hc
  obtain ⟨g2, h2, hw2, hcell2⟩ := apply_move_spec size g1 row col hw1 hr0 hr hc0 hc
  have hgg : g2 = g := by
    refine grid_ext size g2 g hw2 hw (fun i j hi hj => ?_)
    rw [hcell2 i j hi hj, hcell1 i j hi hj]
    by_cases hP : PressTarget size row col i j
    · rw [if_pos hP, if_pos hP]; omega
    · rw [if_neg hP, if_neg hP]
  exact ⟨g1, h1, hgg ▸ h2⟩

/-- C6 witness: double-pressing the center of a concrete 3 by 3 grid. -/
theorem c6_witness :
    Wf 3 [[0, 0, 0], [0, 1, 0], [0, 0, 0]] ∧ Bits [[0, 0, 0], [0, 1, 0], [0, 0, 0]] ∧
    ∃ g1, apply_move 3 [[0, 0, 0], [0, 1, 0], [0, 0, 0]] 1 1 = some g1 ∧
      apply_move 3 g1 1 1 = some [[0, 0, 0], [0, 1, 0], [0, 0, 0]] :=
  ⟨by decide, by decide,
    c6_double_press_cancels 3 [[0, 0, 0], [0, 1, 0], [0, 0, 0]] 1 1
      (by decide) (by decide) (by decide) (by decide) (by decide) (by decide)⟩

/-- C7: `apply_move` returns a new grid (the embedding is functional, so
the input value is unchanged by construction) in which the pressed cell
and each existing orthogonal neighbor is flipped (`1 - v`, i.e. 0 and 1
exchanged for 0/1 grids) and every other cell keeps its value. -/
theorem c7_frame_effect (size : Nat) (g : Grid) (row col : Int)
    (hw : Wf size g)
    (hr0 : 0 ≤ row) (hr : row < (size : Int)) (hc0 : 0 ≤ col) (hc : col < (size : Int)) :
    ∃ g2, apply_move size g row col = some g2 ∧ Wf size g2 ∧
      ∀ i j, i < size → j < size →
        (PressTarget size row col i j → cellv g2 i j = 1 - cellv g i j) ∧
        (¬PressTarget size row col i j → cellv g2 i j = cellv g i j) := by
  obtain ⟨g2, h2, hw2, hcell⟩ := apply_move_spec size g row col hw hr0 hr hc0 hc
  refine ⟨g2, h2, hw2, fun i j hi hj => ⟨fun hP => ?_, fun hP => ?_⟩⟩
  · rw [hcell i j hi hj, if_pos hP]
  · rw [hcell i j hi hj, if_neg hP]

/-- C7 witness: pressing the center of the all-off 3 by 3 grid. -/
theorem c7_witness :
    Wf 3 [[0, 0, 0], [0, 0, 0], [0, 0, 0]] ∧
    ∃ g2, apply_move 3 [[0, 0, 0], [0, 0, 0], [0, 0, 0]] 1 1 = some g2 ∧ Wf 3 g2 ∧
      ∀ i j, i < 3 → j < 3 →
        (PressTarget 3 1 1 i j → cellv g2 i j = 1 - cellv [[0, 0, 0], [0, 0, 0], [0, 0, 0]] i j) ∧
        (¬PressTarget 3 1 1 i j → cellv g2 i j = cellv [[0, 0, 0], [0, 0, 0], [0, 0, 0]] i j) :=
  ⟨by decide,
    c7_frame_effect 3 [[0, 0, 0], [0, 0, 0], [0, 0, 0]] 1 1
      (by decide) (by decide) (by decide) (by decide) (by decide)⟩

/-- C8 counterexample: `apply_move` does not reject the out-of-range
coordinate `row = -1`; Python negative indexing wraps around and the
call succeeds, toggling cells of the bottom and top rows. -/
theorem c8_counterexample :
    apply_move 3 [[0, 0, 0], [0, 0, 0], [0, 0, 0]] (-1) 0 =
      some [[1, 0, 0], [0, 0, 0], [1, 1, 0]] := by decide

/-- C8 amended: `apply_move` performs no coordinate validation.  It
succeeds exactly when both coordinates lie in the Python indexing range
`[-size, size)` — negative coordinates wrap around instead of being
rejected — and an uncaught `IndexError` (`none`), not an
`InvalidCoordinate` result, occurs outside that range.  The caller's
grid is never mutated (the embedding returns a fresh value). -/
theorem c8_amended_no_validation (size : Nat) (g : Grid) (row col : Int)
    (hw : Wf size g) :
    (∃ g2, apply_move size g row col = some g2) ↔
      (-(size : Int) ≤ row ∧ row < (size : Int) ∧
        -(size : Int) ≤ col ∧ col < (size : Int)) :=
  apply_move_isSome_iff size g row col hw

/-- C8 witness: the amended statement applied at `size = 3`, `row = -1`:
the wraparound press succeeds instead of being rejected. -/
theorem c8_witness :
    Wf 3 [[0, 0, 0], [0, 0, 0], [0, 0, 0]] ∧
    ∃ g2, apply_move 3 [[0, 0, 0], [0, 0, 0], [0, 0, 0]] (-1) 0 = some g2 :=
  ⟨by decide,
    (c8_amended_no_validation 3 [[0, 0, 0], [0, 0, 0], [0, 0, 0]] (-1) 0
      (by decide)).mpr (by decide)⟩

/-- C10: `apply_move` preserves the grid data invariant: a well-formed
n by n grid with 0/1 entries is mapped to a well-formed n by n grid
with 0/1 entries. -/
theorem c10_invariant_preserved (size : Nat) (g : Grid) (row col : Int)
    (hw : Wf size g) (hb : Bits g)
    (hr0 : 0 ≤ row) (hr : row < (size : Int)) (hc0 : 0 ≤ col) (hc : col < (size : Int)) :
    ∃ g2, apply_move size g row col = some g2 ∧ Wf size g2 ∧ Bits g2 := by
  obtain ⟨g2, h2, hw2, _⟩ := apply_move_spec size g row col hw hr0 hr hc0 hc
  exact ⟨g2, h2, hw2, apply_move_some_bits size g g2 row col hb h2⟩

/-- C10 witness at a concrete corner press. -/
theorem c10_witness :
    Wf 2 [[1, 0], [0, 1]] ∧ Bits [[1, 0], [0, 1]] ∧
    ∃ g2, apply_move 2 [[1, 0], [0, 1]] 0 0 = some g2 ∧ Wf 2 g2 ∧ Bits g2 :=
  ⟨by decide, by decide,
    c10_invariant_preserved 2 [[1, 0], [0, 1]] 0 0
      (by decide) (by decide) (by decide) (by decide) (by decide) (by decide)⟩

/-! ### The transition matrix -/

theorem foldl_set_len (size : Nat) (L : List (Int × Int)) :
    ∀ init : List Int,
      (L.foldl (fun acc p => acc.set (pos_to_idx size p.1 p.2) 1) init).length =
        init.length := by
  induction L with
  | nil => intro init; rfl
  | cons a T ih => intro init; rw [List.foldl_cons, ih, List.length_set]

theorem foldl_set_getD (size : Nat) (L : List (Int × Int)) :
    ∀ (init : List Int) (j : Nat), (∀ p ∈ L, pos_to_idx size p.1 p.2 < init.length) →
      (L.foldl (fun acc p => acc.set (pos_to_idx size p.1 p.2) 1) init).getD j 0 =
        if ∃ p ∈ L, pos_to_idx size p.1 p.2 = j then 1 else init.getD j 0 := by
  induction L with
  | nil => intro init j _; simp
  | cons a T ih =>
    intro init j hb
    rw [List.foldl_cons]
    rw [ih (init.set (pos_to_idx size a.1 a.2) 1) j (fun p hp => by
      rw [List.length_set]; exact hb p (List.mem_cons_of_mem _ hp))]
    by_cases hjT : ∃ p ∈ T, pos_to_idx size p.1 p.2 = j
    · rw [if_pos hjT]
      obtain ⟨p, hp1, hp2⟩ := hjT
      rw [if_pos ⟨p, List.mem_cons_of_mem _ hp1, hp2⟩]
    · rw [if_neg hjT]
      by_cases hja : pos_to_idx size a.1 a.2 = j
      · rw [if_pos ⟨a, List.mem_cons_self _ _, hja⟩, ← hja,
          getD_set_eq _ _ _ _ (hb a (List.mem_cons_self _ _))]
      · rw [if_neg (fun hm => by
          obtain ⟨p, hp1, hp2⟩ := hm
          rcases List.mem_cons.mp hp1 with h | h
          · exact hja (h ▸ hp2)
          · exact hjT ⟨p, h, hp2⟩),
          getD_set_ne _ _ _ _ _ hja]

theorem foldl_set_mem (size : Nat) (L : List (Int × Int)) :
    ∀ (init : List Int) (v : Int),
      v ∈ L.foldl (fun acc p => acc.set (pos_to_idx size p.1 p.2) 1) init →
        v = 1 ∨ v ∈ init := by
  induction L with
  | nil => intro init v h; exact Or.inr h
  | cons a T ih =>
    intro init v h
    rw [List.foldl_cons] at h
    rcases ih _ v h with h2 | h2
    · exact Or.inl h2
    · rcases List.mem_or_eq_of_mem_set h2 with h3 | h3
      · exact Or.inr h3
      · exact Or.inl h3

theorem div_mod_encode (size r c : Nat) (hc : c < size) :
    (r * size + c) / size = r ∧ (r * size + c) % size = c := by
  have hs : 0 < size := by omega
  constructor
  · rw [Nat.mul_comm r size, Nat.mul_add_div hs, Nat.div_eq_of_lt hc, Nat.add_zero]
  · rw [Nat.mul_comm r size, Nat.mul_add_mod, Nat.mod_eq_of_lt hc]

theorem row_lt_of_idx_lt (size i : Nat) (hs : 0 < size) (hi : i < size * size) :
    i / size < size ∧ i % size < size :=
  ⟨(Nat.div_lt_iff_lt_mul hs).mpr (by rw [Nat.mul_comm]; exact hi), Nat.mod_lt _ hs⟩

theorem idx_decompose (size i : Nat) : i / size * size + i % size = i := by
  rw [Nat.mul_comm]
  exact Nat.div_add_mod i size

theorem enc_cast (size a b : Nat) :
    pos_to_idx size ((a : Int)) ((b : Int)) = a * size + b := by
  unfold pos_to_idx
  rw [show ((a : Int) * (size : Nat) + (b : Int)) = ((a * size + b : Nat) : Int) by push_cast; ring]
  exact Int.toNat_natCast _

theorem enc_lt (size a b : Nat) (ha : a < size) (hb : b < size) :
    a * size + b < size * size := by
  calc a * size + b < a * size + size := by omega
  _ = (a + 1) * size := by ring
  _ ≤ size * size := Nat.mul_le_mul_right _ (by omega)

theorem natCast_nonneg_int (a : Nat) : 0 ≤ ((a : Nat) : Int) := Int.natCast_nonneg _

theorem natCast_lt_int (a b : Nat) (h : a < b) : ((a : Nat) : Int) < ((b : Nat) : Int) := by
  exact_mod_cast h

theorem getD_map_range {α : Type} (m i : Nat) (f : Nat → α) (d : α) (h : i < m) :
    ((List.range m).map f).getD i d = f i := by
  rw [getD_eq_getElem _ _ _ (by simpa using h)]
  simp

theorem getD_replicate_zero (m j : Nat) :
    (List.replicate m (0 : Int)).getD j 0 = 0 := by
  rcases Nat.lt_or_ge j m with h | h
  · rw [getD_eq_getElem _ _ _ (by simpa using h)]; simp
  · exact getD_oob _ _ _ (by simpa using h)

/-- The entry `A[i][j]` of the transition matrix is `1` when cell `j`
is toggled by pressing cell `i`, else `0`. -/
theorem build_entry (size : Nat) (hs : 0 < size) (i j : Nat)
    (hi : i < size * size) (hj : j < size * size) :
    cellv (build_transition_matrix size) i j =
      if PressTarget size ((i / size : Nat) : Int) ((i % size : Nat) : Int)
        (j / size) (j % size) then 1 else 0 := by
  obtain ⟨hri, hci⟩ := row_lt_of_idx_lt size i hs hi
  obtain ⟨hrj, hcj⟩ := row_lt_of_idx_lt size j hs hj
  have hrow : cellv (build_transition_matrix size) i j = (buildRow size i).getD j 0 := by
    unfold cellv build_transition_matrix
    rw [getD_map_range _ _ _ _ hi]
  rw [hrow]
  unfold buildRow idx_to_pos
  simp only []
  have hbound : ∀ p ∈ toggles (size : Int) ((i / size : Nat) : Int)
      ((i % size : Nat) : Int),
      pos_to_idx size p.1 p.2 < (List.replicate (size * size) (0 : Int)).length := by
    intro q hq
    obtain ⟨hq1, hq2, hq3, hq4⟩ := toggles_bounds_inrange size _ _
      (natCast_nonneg_int _) (natCast_lt_int _ _ hri)
      (natCast_nonneg_int _) (natCast_lt_int _ _ hci) q hq
    rw [List.length_replicate]
    have hq1e : q.1 = ((q.1.toNat : Nat) : Int) := by omega
    have hq2e : q.2 = ((q.2.toNat : Nat) : Int) := by omega
    rw [hq1e, hq2e, enc_cast]
    exact enc_lt size _ _ (by omega) (by omega)
  rw [foldl_set_getD size _ _ _ hbound]
  have hmemiff : (∃ p ∈ toggles (size : Int) ((i / size : Nat) : Int)
      ((i % size : Nat) : Int), pos_to_idx size p.1 p.2 = j) ↔
      PressTarget size ((i / size : Nat) : Int) ((i % size : Nat) : Int)
        (j / size) (j % size) := by
    constructor
    · rintro ⟨q, hq, hpq⟩
      obtain ⟨hq1, hq2, hq3, hq4⟩ := toggles_bounds_inrange size _ _
        (natCast_nonneg_int _) (natCast_lt_int _ _ hri)
        (natCast_nonneg_int _) (natCast_lt_int _ _ hci) q hq
      have hqe : q = (((q.1.toNat : Nat) : Int), ((q.2.toNat : Nat) : Int)) := by
        rw [Prod.ext_iff]
        refine ⟨?_, ?_⟩ <;> simp only [] <;> omega
      rw [hqe] at hq
      have hP := (mem_toggles_iff_pressTarget size _ _ q.1.toNat q.2.toNat
        (natCast_nonneg_int _) (natCast_lt_int _ _ hri)
        (natCast_nonneg_int _) (natCast_lt_int _ _ hci) (by omega) (by omega)).mp hq
      have hje : j = q.1.toNat * size + q.2.toNat := by
        rw [← hpq, hqe]
        simp only []
        rw [enc_cast]
        have e1 : ((q.1.toNat : Nat) : Int).toNat = q.1.toNat := by omega
        have e2 : ((q.2.toNat : Nat) : Int).toNat = q.2.toNat := by omega
        rw [e1, e2]
      obtain ⟨hd, hm⟩ := div_mod_encode size q.1.toNat q.2.toNat (by omega)
      rw [hje, hd, hm]
      exact hP
    · intro hP
      refine ⟨(((j / size : Nat) : Int), ((j % size : Nat) : Int)), ?_, ?_⟩
      · exact (mem_toggles_iff_pressTarget size _ _ (j / size) (j % size)
          (natCast_nonneg_int _) (natCast_lt_int _ _ hri)
          (natCast_nonneg_int _) (natCast_lt_int _ _ hci) hrj hcj).mpr hP
      · simp only []
        rw [enc_cast]
        exact idx_decompose size j
  by_cases hP : PressTarget size ((i / size : Nat) : Int) ((i % size : Nat) : Int)
      (j / size) (j % size)
  · rw [if_pos (hmemiff.mpr hP), if_pos hP]
  · rw [if_neg (fun hm => hP (hmemiff.mp hm)), if_neg hP, getD_replicate_zero]

theorem build_shape (size : Nat) :
    (build_transition_matrix size).length = size * size ∧
    ∀ r ∈ build_transition_matrix size, r.length = size * size := by
  constructor
  · simp [build_transition_matrix]
  · intro r hr
    rw [build_transition_matrix, List.mem_map] at hr
    obtain ⟨i, _, hri⟩ := hr
    rw [← hri, buildRow, foldl_set_len, List.length_replicate]

theorem build_bits (size : Nat) :
    ∀ r ∈ build_transition_matrix size, ∀ v ∈ r, v = 0 ∨ v = 1 := by
  intro r hr v hv
  rw [build_transition_matrix, List.mem_map] at hr
  obtain ⟨i, _, hri⟩ := hr
  rw [← hri, buildRow] at hv
  rcases foldl_set_mem size _ _ _ hv with h | h
  · exact Or.inr h
  · exact Or.inl (List.eq_of_mem_replicate h)

theorem pressTarget_symm (size : Nat) (a b c d : Nat) :
    PressTarget size ((a : Nat) : Int) ((b : Nat) : Int) c d ↔
      PressTarget size ((c : Nat) : Int) ((d : Nat) : Int) a b := by
  unfold PressTarget
  omega

/-- C5: for `size ≥ 1` the transition matrix is n² by n² with
`A[i][j] = 1` exactly when cell `j` (row-major decoding `j = r·n + c`)
is cell `i` itself or an existing orthogonal neighbor of cell `i`, and
`A` is symmetric. -/
theorem c5_transition_matrix (size : Nat) (hs : 1 ≤ size) :
    (build_transition_matrix size).length = size * size ∧
    (∀ r ∈ build_transition_matrix size, r.length = size * size) ∧
    (∀ i j, i < size * size → j < size * size →
      (cellv (build_transition_matrix size) i j = 1 ↔
        PressTarget size ((i / size : Nat) : Int) ((i % size : Nat) : Int)
          (j / size) (j % size))) ∧
    (∀ i j, i < size * size → j < size * size →
      cellv (build_transition_matrix size) i j =
        cellv (build_transition_matrix size) j i) := by
  refine ⟨(build_shape size).1, (build_shape size).2, ?_, ?_⟩
  · intro i j hi hj
    rw [build_entry size (by omega) i j hi hj]
    by_cases hP : PressTarget size ((i / size : Nat) : Int) ((i % size : Nat) : Int)
        (j / size) (j % size)
    · simp [hP]
    · simp [hP]
  · intro i j hi hj
    rw [build_entry size (by omega) i j hi hj, build_entry size (by omega) j i hj hi]
    by_cases hP : PressTarget size ((i / size : Nat) : Int) ((i % size : Nat) : Int)
        (j / size) (j % size)
    · rw [if_pos hP, if_pos ((pressTarget_symm size _ _ _ _).mp hP)]
    · rw [if_neg hP, if_neg (fun h => hP ((pressTarget_symm size _ _ _ _).mpr h))]

/-- C5 witness: the concrete 2 by 2 instance. -/
theorem c5_witness :
    (1 ≤ 2) ∧
    ((build_transition_matrix 2).length = 2 * 2 ∧
    (∀ r ∈ build_transition_matrix 2, r.length = 2 * 2) ∧
    (∀ i j, i < 2 * 2 → j < 2 * 2 →
      (cellv (build_transition_matrix 2) i j = 1 ↔
        PressTarget 2 ((i / 2 : Nat) : Int) ((i % 2 : Nat) : Int) (j / 2) (j % 2))) ∧
    (∀ i j, i < 2 * 2 → j < 2 * 2 →
      cellv (build_transition_matrix 2) i j = cellv (build_transition_matrix 2) j i)) :=
  ⟨by decide, c5_transition_matrix 2 (by decide)⟩

/-! ### GF(2) reflection of the mod-2 integer arithmetic -/

theorem intCast_emod_two (a : Int) : ((a % 2 : Int) : ZMod 2) = (a : ZMod 2) := by
  have h2 : ((2 : Int) : ZMod 2) = 0 := by decide
  rw [Int.emod_def, Int.cast_sub, Int.cast_mul, h2, zero_mul, sub_zero]

theorem zmod2_add_self (a : ZMod 2) : a + a = 0 := by
  revert a; decide

theorem mem_iff_getD {α : Type} (l : List α) (d : α) (a : α) (h : a ∈ l) :
    ∃ k, k < l.length ∧ l.getD k d = a := by
  induction l with
  | nil => simp at h
  | cons x t ih =>
    rcases List.mem_cons.mp h with h1 | h1
    · exact ⟨0, by simp, by simp [List.getD, h1.symm]⟩
    · obtain ⟨k, hk, hk2⟩ := ih h1
      exact ⟨k + 1, by simpa using hk, by simpa [List.getD] using hk2⟩

theorem cellv_bits (n : Nat) (M : List (List Int))
    (hlen : M.length = n) (hrow : ∀ r ∈ M, r.length = n + 1)
    (hb : ∀ r ∈ M, ∀ v ∈ r, v = 0 ∨ v = 1)
    (r k : Nat) (hr : r < n) (hk : k < n + 1) :
    cellv M r k = 0 ∨ cellv M r k = 1 := by
  have hmem : M.getD r [] ∈ M := getD_mem _ _ _ (by omega)
  have : (M.getD r []).getD k 0 ∈ M.getD r [] :=
    getD_mem _ _ _ (by rw [hrow _ hmem]; omega)
  exact hb _ hmem _ this

/-! ### Row addition -/

theorem rowAdd_length (a b : List Int) :
    (rowAdd a b).length = min a.length b.length := by
  simp [rowAdd]

theorem rowAdd_getD (a b : List Int) (c : Nat)
    (hc : c < a.length) (hc2 : c < b.length) :
    (rowAdd a b).getD c 0 = (a.getD c 0 + b.getD c 0) % 2 := by
  unfold rowAdd
  induction a generalizing b c with
  | nil => simp at hc
  | cons x t ih =>
    cases b with
    | nil => simp at hc2
    | cons y s =>
      cases c with
      | zero => simp [List.getD]
      | succ k =>
        simp only [List.zipWith_cons_cons, List.getD_cons_succ]
        exact ih s k (by simpa using hc) (by simpa using hc2)

theorem rowAdd_mem (a b : List Int) (v : Int) (h : v ∈ rowAdd a b) :
    ∃ x y : Int, v = (x + y) % 2 := by
  unfold rowAdd at h
  induction a generalizing b with
  | nil => simp at h
  | cons x t ih =>
    cases b with
    | nil => simp at h
    | cons y s =>
      simp only [List.zipWith_cons_cons, List.mem_cons] at h
      rcases h with h | h
      · exact ⟨x, y, h⟩
      · exact ih s h

theorem emod_two_bit (a : Int) : a % 2 = 0 ∨ a % 2 = 1 := by omega

/-! ### Row swap -/

theorem swapRows_length (M : List (List Int)) (i j : Nat) :
    (swapRows M i j).length = M.length := by
  simp [swapRows]

theorem swapRows_mem (M : List (List Int)) (i j : Nat)
    (hi : i < M.length) (hj : j < M.length) :
    ∀ r ∈ swapRows M i j, r ∈ M := by
  intro r hr
  rcases List.mem_or_eq_of_mem_set hr with h | h
  · rcases List.mem_or_eq_of_mem_set h with h2 | h2
    · exact h2
    · exact h2 ▸ getD_mem _ _ _ hj
  · exact h ▸ getD_mem _ _ _ hi

theorem swapRows_getD (M : List (List Int)) (i j r : Nat)
    (hi : i < M.length) (hj : j < M.length) :
    (swapRows M i j).getD r [] =
      if r = j then M.getD i [] else if r = i then M.getD j [] else M.getD r [] := by
  unfold swapRows
  by_cases hrj : r = j
  · rw [if_pos hrj, hrj, getD_set_eq _ _ _ _ (by simpa using hj)]
  · rw [if_neg hrj, getD_set_ne _ _ _ _ _ (fun h => hrj h.symm)]
    by_cases hri : r = i
    · rw [if_pos hri, hri, getD_set_eq _ _ _ _ hi]
    · rw [if_neg hri, getD_set_ne _ _ _ _ _ (fun h => hri h.symm)]

theorem swapRows_cellv (M : List (List Int)) (i j r c : Nat)
    (hi : i < M.length) (hj : j < M.length) :
    cellv (swapRows M i j) r c =
      if r = j then cellv M i c else if r = i then cellv M j c else cellv M r c := by
  unfold cellv
  rw [swapRows_getD M i j r hi hj]
  by_cases hrj : r = j
  · rw [if_pos hrj, if_pos hrj]
  · rw [if_neg hrj, if_neg hrj]
    by_cases hri : r = i
    · rw [if_pos hri, if_pos hri]
    · rw [if_neg hri, if_neg hri]

/-! ### The elimination inner loop -/

theorem elimRowsAux_length (p : List Int) (rowIdx col : Nat) :
    ∀ (s : Nat) (l : List (List Int)), (elimRowsAux p rowIdx col s l).length = l.length := by
  intro s l
  induction l generalizing s with
  | nil => rfl
  | cons r rs ih => simp [elimRowsAux, ih]

theorem elimRowsAux_getD (p : List Int) (rowIdx col : Nat) :
    ∀ (s : Nat) (l : List (List Int)) (k : Nat), k < l.length →
      (elimRowsAux p rowIdx col s l).getD k [] =
        if s + k ≠ rowIdx ∧ (l.getD k []).getD col 0 = 1
        then rowAdd (l.getD k []) p else l.getD k [] := by
  intro s l
  induction l generalizing s with
  | nil => intro k hk; simp at hk
  | cons r rs ih =>
    intro k hk
    cases k with
    | zero => simp [elimRowsAux, List.getD]
    | succ m =>
      simp only [elimRowsAux, List.getD_cons_succ]
      rw [ih (s + 1) m (by simpa using hk)]
      have : s + 1 + m = s + (m + 1) := by omega
      rw [this]

theorem elimRowsAux_mem (p : List Int) (rowIdx col : Nat) :
    ∀ (s : Nat) (l : List (List Int)) (q : List Int),
      q ∈ elimRowsAux p rowIdx col s l → q ∈ l ∨ ∃ r ∈ l, q = rowAdd r p := by
  intro s l
  induction l generalizing s with
  | nil => intro q h; simp [elimRowsAux] at h
  | cons r rs ih =>
    intro q h
    simp only [elimRowsAux, List.mem_cons] at h
    rcases h with h | h
    · by_cases hc : s ≠ rowIdx ∧ r.getD col 0 = 1
      · rw [if_pos hc] at h
        exact Or.inr ⟨r, List.mem_cons_self _ _, h⟩
      · rw [if_neg hc] at h
        exact Or.inl (List.mem_cons.mpr (Or.inl h))
    · rcases ih (s + 1) q h with h2 | h2
      · exact Or.inl (List.mem_cons_of_mem _ h2)
      · obtain ⟨r2, hr2, hq⟩ := h2
        exact Or.inr ⟨r2, List.mem_cons_of_mem _ hr2, hq⟩

theorem eliminateOthers_length (M : List (List Int)) (rowIdx col : Nat) :
    (eliminateOthers M rowIdx col).length = M.length :=
  elimRowsAux_length _ _ _ _ _

theorem eliminateOthers_getD (M : List (List Int)) (rowIdx col k : Nat)
    (hk : k < M.length) :
    (eliminateOthers M rowIdx col).getD k [] =
      if k ≠ rowIdx ∧ (M.getD k []).getD col 0 = 1
      then rowAdd (M.getD k []) (M.getD rowIdx []) else M.getD k [] := by
  unfold eliminateOthers
  rw [elimRowsAux_getD _ _ _ 0 M k hk]
  simp

theorem eliminateOthers_mem (M : List (List Int)) (rowIdx col : Nat) :
    ∀ q ∈ eliminateOthers M rowIdx col,
      q ∈ M ∨ ∃ r ∈ M, q = rowAdd r (M.getD rowIdx []) :=
  fun q h => elimRowsAux_mem _ _ _ 0 M q h

/-! ### Pivot search -/

theorem findPivot_some (M : List (List Int)) (row col n p : Nat)
    (h : findPivot M row col n = some p) :
    row ≤ p ∧ p < n ∧ cellv M p col = 1 := by
  unfold findPivot at h
  have hmem := List.mem_of_find?_eq_some h
  have hpred := List.find?_some h
  rw [List.mem_range'_1] at hmem
  refine ⟨hmem.1, by omega, ?_⟩
  unfold cellv
  simpa using hpred

theorem findPivot_none (M : List (List Int)) (row col n : Nat)
    (h : findPivot M row col n = none) :
    ∀ r, row ≤ r → r < n → cellv M r col ≠ 1 := by
  intro r hr1 hr2
  unfold findPivot at h
  rw [List.find?_eq_none] at h
  have hrm : r ∈ List.range' row (n - row) := by
    rw [List.mem_range'_1]; omega
  have := h r hrm
  unfold cellv
  simpa using this

/-! ### Row operations preserve the GF(2) solution set -/

theorem rowSum_rowAdd (a b : List Int) (n : Nat) (x : Nat → ZMod 2)
    (ha : a.length = n + 1) (hb : b.length = n + 1) :
    rowSum (rowAdd a b) n x = rowSum a n x + rowSum b n x := by
  unfold rowSum
  rw [← Finset.sum_add_distrib]
  apply Finset.sum_congr rfl
  intro c hc
  rw [Finset.mem_range] at hc
  rw [rowAdd_getD a b c (by omega) (by omega), intCast_emod_two]
  push_cast
  ring

theorem satRow_rowAdd_iff (a b : List Int) (n : Nat) (x : Nat → ZMod 2)
    (ha : a.length = n + 1) (hb : b.length = n + 1) (hsb : SatRow b n x) :
    SatRow a n x ↔ SatRow (rowAdd a b) n x := by
  unfold SatRow at *
  rw [rowSum_rowAdd a b n x ha hb, rowAdd_getD a b n (by omega) (by omega),
    intCast_emod_two]
  push_cast
  constructor
  · intro h
    rw [h, hsb]
  · intro h
    rw [hsb] at h
    exact add_right_cancel h

theorem swapRows_mem_rev (M : List (List Int)) (i j : Nat)
    (hi : i < M.length) (hj : j < M.length) :
    ∀ r ∈ M, r ∈ swapRows M i j := by
  intro r hr
  obtain ⟨k, hk, hkr⟩ := mem_iff_getD M [] r hr
  have hlen : (swapRows M i j).length = M.length := swapRows_length M i j
  by_cases hki : k = i
  · subst hki
    have := swapRows_getD M k j j hi hj
    rw [if_pos rfl] at this
    rw [← hkr, ← this]
    exact getD_mem _ _ _ (by omega)
  · by_cases hkj : k = j
    · subst hkj
      have hij : i ≠ k := fun h => hki h.symm
      have := swapRows_getD M i k i hi hj
      rw [if_neg hij, if_pos rfl] at this
      rw [← hkr, ← this]
      exact getD_mem _ _ _ (by omega)
    · have := swapRows_getD M i j k hi hj
      rw [if_neg hkj, if_neg hki] at this
      rw [← hkr, ← this]
      exact getD_mem _ _ _ (by omega)

theorem sat_swap (n : Nat) (M : List (List Int)) (i j : Nat)
    (hi : i < M.length) (hj : j < M.length) (x : Nat → ZMod 2) :
    Sat n (swapRows M i j) x ↔ Sat n M x := by
  constructor
  · intro h r hr
    exact h r (swapRows_mem_rev M i j hi hj r hr)
  · intro h r hr
    exact h r (swapRows_mem M i j hi hj r hr)

theorem sat_elim (n : Nat) (M : List (List Int)) (rowIdx col : Nat)
    (hlen : M.length = n) (hrow : ∀ r ∈ M, r.length = n + 1)
    (hrank : rowIdx < n) (x : Nat → ZMod 2) :
    Sat n (eliminateOthers M rowIdx col) x ↔ Sat n M x := by
  have hPmem : M.getD rowIdx [] ∈ M := getD_mem _ _ _ (by omega)
  have hPlen : (M.getD rowIdx []).length = n + 1 := hrow _ hPmem
  have hElen : (eliminateOthers M rowIdx col).length = M.length :=
    eliminateOthers_length M rowIdx col
  have hPunchanged : (eliminateOthers M rowIdx col).getD rowIdx [] = M.getD rowIdx [] := by
    rw [eliminateOthers_getD M rowIdx col rowIdx (by omega), if_neg (by simp)]
  have hPmem2 : M.getD rowIdx [] ∈ eliminateOthers M rowIdx col := by
    rw [← hPunchanged]
    exact getD_mem _ _ _ (by omega)
  constructor
  · intro h r hr
    obtain ⟨k, hk, hkr⟩ := mem_iff_getD M [] r hr
    have h2 := eliminateOthers_getD M rowIdx col k hk
    have hSP : SatRow (M.getD rowIdx []) n x := h _ hPmem2
    by_cases hc : k ≠ rowIdx ∧ (M.getD k []).getD col 0 = 1
    · rw [if_pos hc] at h2
      have hmem2 : rowAdd (M.getD k []) (M.getD rowIdx []) ∈
          eliminateOthers M rowIdx col := by
        rw [← h2]
        exact getD_mem _ _ _ (by omega)
      have hkmem : M.getD k [] ∈ M := getD_mem _ _ _ hk
      have := (satRow_rowAdd_iff (M.getD k []) (M.getD rowIdx []) n x
        (hrow _ hkmem) hPlen hSP).mpr (h _ hmem2)
      exact hkr ▸ this
    · rw [if_neg hc] at h2
      have : r ∈ eliminateOthers M rowIdx col := by
        rw [← hkr, ← h2]
        exact getD_mem _ _ _ (by omega)
      exact h _ this
  · intro h q hq
    rcases eliminateOthers_mem M rowIdx col q hq with h2 | ⟨r, hr, hq2⟩
    · exact h _ h2
    · subst hq2
      exact (satRow_rowAdd_iff r _ n x (hrow _ hr) hPlen (h _ hPmem)).mp (h _ hr)

/-! ### The elimination invariant is preserved by each column step -/

theorem elimStepP_inv (n c : Nat) (M : List (List Int)) (rank : Nat) (ps : List Nat)
    (hinv : ElimInv n c M rank ps) (hcn : c < n) :
    ElimInv n (c + 1) (elimStepP n ((M, rank), ps) c).1.1
      (elimStepP n ((M, rank), ps) c).1.2 (elimStepP n ((M, rank), ps) c).2 := by
  cases hfp : findPivot M rank c n with
  | none =>
    have hres : elimStepP n ((M, rank), ps) c = ((M, rank), ps) := by
      unfold elimStepP
      rw [hfp]
    rw [hres]
    show ElimInv n (c + 1) M rank ps
    refine ⟨hinv.len, hinv.rowlen, hinv.bits, by have := hinv.rank_le_c; omega,
      hinv.rank_le_n, hinv.ps_len, fun p hp => by have := hinv.ps_lt p hp; omega,
      hinv.ps_mono, hinv.pivot_one, hinv.pivot_col, hinv.left_zero, ?_⟩
    intro r hr1 hr2 k hk
    rcases Nat.lt_or_ge k c with h | h
    · exact hinv.below_zero r hr1 hr2 k h
    · have hkc : k = c := by omega
      rw [hkc]
      have hne := findPivot_none M rank c n hfp r hr1 hr2
      rcases cellv_bits n M hinv.len hinv.rowlen hinv.bits r c hr2 (by omega) with h0 | h1
      · exact h0
      · exact absurd h1 hne
  | some p =>
    obtain ⟨hp1, hp2, hp3⟩ := findPivot_some M rank c n p hfp
    have hres : elimStepP n ((M, rank), ps) c =
        ((eliminateOthers (swapRows M rank p) rank c, rank + 1), ps ++ [c]) := by
      unfold elimStepP
      rw [hfp]
    rw [hres]
    show ElimInv n (c + 1) (eliminateOthers (swapRows M rank p) rank c) (rank + 1)
      (ps ++ [c])
    have hlen : M.length = n := hinv.len
    have hrankn : rank < n := by omega
    have hM1len : (swapRows M rank p).length = n := by rw [swapRows_length]; exact hlen
    have hM1sub : ∀ r ∈ swapRows M rank p, r ∈ M :=
      swapRows_mem M rank p (by omega) (by omega)
    have hM1rowlen : ∀ r ∈ swapRows M rank p, r.length = n + 1 :=
      fun r hr => hinv.rowlen r (hM1sub r hr)
    have hM1bits : ∀ r ∈ swapRows M rank p, ∀ v ∈ r, v = 0 ∨ v = 1 :=
      fun r hr => hinv.bits r (hM1sub r hr)
    have hM1cell : ∀ r k, cellv (swapRows M rank p) r k =
        if r = p then cellv M rank k else if r = rank then cellv M p k
        else cellv M r k :=
      fun r k => swapRows_cellv M rank p r k (by omega) (by omega)
    have hPk : ∀ k, cellv (swapRows M rank p) rank k = cellv M p k := by
      intro k
      rw [hM1cell]
      split_ifs with h1 h2
      · rw [h1]
      · rfl
      · exact absurd rfl h2
    have hM2len : (eliminateOthers (swapRows M rank p) rank c).length = n := by
      rw [eliminateOthers_length]; exact hM1len
    have hM2cell : ∀ r k, r < n → k < n + 1 →
        cellv (eliminateOthers (swapRows M rank p) rank c) r k =
          if r ≠ rank ∧ cellv (swapRows M rank p) r c = 1
          then (cellv (swapRows M rank p) r k + cellv (swapRows M rank p) rank k) % 2
          else cellv (swapRows M rank p) r k := by
      intro r k hr hk
      have hrowr : (swapRows M rank p).getD r [] ∈ swapRows M rank p :=
        getD_mem _ _ _ (by omega)
      have hrowrank : (swapRows M rank p).getD rank [] ∈ swapRows M rank p :=
        getD_mem _ _ _ (by omega)
      unfold cellv
      rw [eliminateOthers_getD _ _ _ r (by omega)]
      by_cases hc2 : r ≠ rank ∧ ((swapRows M rank p).getD r []).getD c 0 = 1
      · rw [if_pos hc2, if_pos hc2]
        rw [rowAdd_getD _ _ k (by rw [hM1rowlen _ hrowr]; omega)
          (by rw [hM1rowlen _ hrowrank]; omega)]
      · rw [if_neg hc2, if_neg hc2]
    have hM2rowlen : ∀ r ∈ eliminateOthers (swapRows M rank p) rank c,
        r.length = n + 1 := by
      intro r hr
      rcases eliminateOthers_mem _ _ _ r hr with h | ⟨q, hq, hrq⟩
      · exact hM1rowlen r h
      · subst hrq
        rw [rowAdd_length, hM1rowlen q hq,
          hM1rowlen _ (getD_mem _ _ _ (by omega : rank < (swapRows M rank p).length))]
        omega
    have hM2bits : ∀ r ∈ eliminateOthers (swapRows M rank p) rank c,
        ∀ v ∈ r, v = 0 ∨ v = 1 := by
      intro r hr v hv
      rcases eliminateOthers_mem _ _ _ r hr with h | ⟨q, _, hrq⟩
      · exact hM1bits r h v hv
      · subst hrq
        obtain ⟨a, b, hab⟩ := rowAdd_mem _ _ v hv
        rw [hab]
        exact emod_two_bit _
    have hgetDl : ∀ i, i < rank → (ps ++ [c]).getD i 0 = ps.getD i 0 :=
      fun i hi => getD_append_left _ _ _ _ (by rw [hinv.ps_len]; omega)
    have hgetDr : (ps ++ [c]).getD rank 0 = c := by
      rw [getD_append_right _ _ _ _ (by rw [hinv.ps_len])]
      rw [hinv.ps_len]
      simp [List.getD]
    have hq_lt : ∀ i, i < rank → ps.getD i 0 < c := by
      intro i hi
      exact hinv.ps_lt _ (getD_mem _ _ _ (by rw [hinv.ps_len]; omega))
    have hM1below : ∀ r, rank ≤ r → r < n → ∀ k, k < c →
        cellv (swapRows M rank p) r k = 0 := by
      intro r hr1 hr2 k hk
      rw [hM1cell]
      split_ifs with h1 h2
      · exact hinv.below_zero rank (by omega) (by omega) k hk
      · exact hinv.below_zero p (by omega) (by omega) k hk
      · exact hinv.below_zero r (by omega) (by omega) k hk
    have hM1pcol : ∀ i, i < rank → ∀ r, r < n → r ≠ i →
        cellv (swapRows M rank p) r (ps.getD i 0) = 0 := by
      intro i hi r hr hne
      rw [hM1cell]
      split_ifs with h1 h2
      · exact hinv.pivot_col i hi rank (by omega) (by omega)
      · exact hinv.pivot_col i hi p (by omega) (by omega)
      · exact hinv.pivot_col i hi r (by omega) hne
    have hM1rowi : ∀ i, i < rank → ∀ k, cellv (swapRows M rank p) i k = cellv M i k := by
      intro i hi k
      rw [hM1cell, if_neg (by omega), if_neg (by omega)]
    refine ⟨hM2len, hM2rowlen, hM2bits, by have := hinv.rank_le_c; omega, by omega,
      by simp [hinv.ps_len], ?_, ?_, ?_, ?_, ?_, ?_⟩
    · intro q hq
      rcases List.mem_append.mp hq with h | h
      · have := hinv.ps_lt q h; omega
      · rw [List.mem_singleton.mp h]; omega
    · rw [List.pairwise_append]
      refine ⟨hinv.ps_mono, List.pairwise_singleton _ _, ?_⟩
      intro a ha b hb
      rw [List.mem_singleton.mp hb]
      exact hinv.ps_lt a ha
    · -- pivot_one
      intro i hi
      rcases Nat.lt_or_ge i rank with hilt | hige
      · rw [hgetDl i hilt]
        have hq := hq_lt i hilt
        have hqn : ps.getD i 0 < n + 1 := by omega
        rw [hM2cell i _ (by omega) hqn]
        by_cases hcnd : i ≠ rank ∧ cellv (swapRows M rank p) i c = 1
        · rw [if_pos hcnd, hM1rowi i hilt, hPk,
            hinv.pivot_one i hilt, hinv.pivot_col i hilt p (by omega) (by omega)]
          decide
        · rw [if_neg hcnd, hM1rowi i hilt, hinv.pivot_one i hilt]
      · have hieq : i = rank := by omega
        rw [hieq, hgetDr, hM2cell rank c (by omega) (by omega), if_neg (by simp), hPk]
        exact hp3
    · -- pivot_col
      intro i hi r hr hne
      rcases Nat.lt_or_ge i rank with hilt | hige
      · rw [hgetDl i hilt]
        have hqn : ps.getD i 0 < n + 1 := by have := hq_lt i hilt; omega
        rw [hM2cell r _ hr hqn]
        by_cases hcnd : r ≠ rank ∧ cellv (swapRows M rank p) r c = 1
        · rw [if_pos hcnd, hM1pcol i hilt r hr hne,
            hPk, hinv.pivot_col i hilt p (by omega) (by omega)]
          decide
        · rw [if_neg hcnd]
          exact hM1pcol i hilt r hr hne
      · have hieq : i = rank := by omega
        rw [hieq] at hne ⊢
        rw [hgetDr, hM2cell r c hr (by omega)]
        by_cases hcnd : r ≠ rank ∧ cellv (swapRows M rank p) r c = 1
        · rw [if_pos hcnd, hcnd.2, hPk, hp3]
          decide
        · rw [if_neg hcnd]
          rcases cellv_bits n (swapRows M rank p) hM1len hM1rowlen hM1bits r c hr
            (by omega) with h0 | h1
          · exact h0
          · exact absurd ⟨hne, h1⟩ hcnd
    · -- left_zero
      intro i hi k hk
      rcases Nat.lt_or_ge i rank with hilt | hige
      · rw [hgetDl i hilt] at hk
        have hkc : k < c := by have := hq_lt i hilt; omega
        rw [hM2cell i k (by omega) (by omega)]
        by_cases hcnd : i ≠ rank ∧ cellv (swapRows M rank p) i c = 1
        · rw [if_pos hcnd, hM1rowi i hilt, hPk, hinv.left_zero i hilt k hk,
            hinv.below_zero p (by omega) (by omega) k hkc]
          decide
        · rw [if_neg hcnd, hM1rowi i hilt]
          exact hinv.left_zero i hilt k hk
      · have hieq : i = rank := by omega
        rw [hieq, hgetDr] at hk
        rw [hieq, hM2cell rank k (by omega) (by omega), if_neg (by simp)]
        exact hM1below rank (by omega) (by omega) k hk
    · -- below_zero
      intro r hr1 hr2 k hk
      rcases Nat.lt_or_ge k c with hkc | hkc
      · rw [hM2cell r k (by omega) (by omega)]
        by_cases hcnd : r ≠ rank ∧ cellv (swapRows M rank p) r c = 1
        · rw [if_pos hcnd, hM1below r (by omega) hr2 k hkc,
            hM1below rank (by omega) (by omega) k hkc]
          decide
        · rw [if_neg hcnd]
          exact hM1below r (by omega) hr2 k hkc
      · have hkeq : k = c := by omega
        subst hkeq
        rw [hM2cell r k (by omega) (by omega)]
        by_cases hcnd : r ≠ rank ∧ cellv (swapRows M rank p) r k = 1
        · rw [if_pos hcnd, hcnd.2, hPk, hp3]
          decide
        · rw [if_neg hcnd]
          rcases cellv_bits n (swapRows M rank p) hM1len hM1rowlen hM1bits r k hr2
            (by omega) with h0 | h1
          · exact h0
          · exact absurd ⟨by omega, h1⟩ hcnd

/-! ### The elimination fold: invariant and solution-set preservation -/

theorem elimStepP_fst (n : Nat) (st : (List (List Int) × Nat) × List Nat) (col : Nat) :
    (elimStepP n st col).1 = elimStep n st.1 col := by
  unfold elimStepP elimStep
  cases findPivot st.1.1 st.1.2 col n <;> rfl

theorem eliminateP_fst (n : Nat) (M0 : List (List Int)) :
    ∀ c, ((List.range c).foldl (elimStepP n) ((M0, 0), [])).1 =
      (List.range c).foldl (elimStep n) (M0, 0) := by
  intro c
  induction c with
  | zero => rfl
  | succ c ih =>
    rw [List.range_succ, List.foldl_append, List.foldl_append,
      List.foldl_cons, List.foldl_nil, List.foldl_cons, List.foldl_nil,
      elimStepP_fst, ih]

theorem eliminateP_inv_sat (n : Nat) (M0 : List (List Int))
    (hlen : M0.length = n) (hrow : ∀ r ∈ M0, r.length = n + 1)
    (hb : ∀ r ∈ M0, ∀ v ∈ r, v = 0 ∨ v = 1) :
    ∀ c, c ≤ n →
      ElimInv n c ((List.range c).foldl (elimStepP n) ((M0, 0), [])).1.1
        ((List.range c).foldl (elimStepP n) ((M0, 0), [])).1.2
        ((List.range c).foldl (elimStepP n) ((M0, 0), [])).2 ∧
      ∀ x, Sat n ((List.range c).foldl (elimStepP n) ((M0, 0), [])).1.1 x ↔
        Sat n M0 x := by
  intro c
  induction c with
  | zero =>
    intro _
    show ElimInv n 0 M0 0 [] ∧ ∀ x, Sat n M0 x ↔ Sat n M0 x
    refine ⟨⟨hlen, hrow, hb, Nat.le_refl 0, by omega, rfl, by simp,
      List.Pairwise.nil, ?_, ?_, ?_, ?_⟩, fun x => Iff.rfl⟩
    · intro i hi; exact absurd hi (by omega)
    · intro i hi; exact absurd hi (by omega)
    · intro i hi; exact absurd hi (by omega)
    · intro r _ hr k hk; exact absurd hk (by omega)
  | succ c ih =>
    intro hc
    have hcn : c < n := by omega
    obtain ⟨hinv, hsat⟩ := ih (by omega)
    rw [List.range_succ, List.foldl_append, List.foldl_cons, List.foldl_nil]
    constructor
    · exact elimStepP_inv n c _ _ _ hinv hcn
    · intro x
      refine Iff.trans ?_ (hsat x)
      generalize hst : (List.range c).foldl (elimStepP n) ((M0, 0), []) = st at hinv
      unfold elimStepP
      cases hfp : findPivot st.1.1 st.1.2 c n with
      | none => exact Iff.rfl
      | some p =>
        show Sat n (eliminateOthers (swapRows st.1.1 st.1.2 p) st.1.2 c) x ↔
          Sat n st.1.1 x
        obtain ⟨hp1, hp2, hp3⟩ := findPivot_some _ _ _ _ _ hfp
        have hrankn : st.1.2 < n := by omega
        have hMlen : st.1.1.length = n := hinv.len
        have hswlen : (swapRows st.1.1 st.1.2 p).length = n := by
          rw [swapRows_length]; exact hMlen
        have hswrows : ∀ r ∈ swapRows st.1.1 st.1.2 p, r.length = n + 1 :=
          fun r hr => hinv.rowlen r
            (swapRows_mem st.1.1 st.1.2 p (by omega) (by omega) r hr)
        exact Iff.trans
          (sat_elim n (swapRows st.1.1 st.1.2 p) st.1.2 c hswlen hswrows hrankn x)
          (sat_swap n st.1.1 st.1.2 p (by omega) (by omega) x)

/-! ### The augmented matrix -/

theorem zipAug_getD (A : List (List Int)) (b : List Int) (r : Nat)
    (hr : r < A.length) (hr2 : r < b.length) :
    (List.zipWith (fun row v => row ++ [v]) A b).getD r [] =
      A.getD r [] ++ [b.getD r 0] := by
  induction A generalizing b r with
  | nil => simp at hr
  | cons a t ih =>
    cases b with
    | nil => simp at hr2
    | cons y s =>
      cases r with
      | zero => simp [List.getD]
      | succ k =>
        simp only [List.zipWith_cons_cons, List.getD_cons_succ]
        exact ih s k (by simpa using hr) (by simpa using hr2)

theorem zipAug_shape (n : Nat) (A : List (List Int)) (b : List Int)
    (hA : A.length = n) (hAr : ∀ r ∈ A, r.length = n) (hb : b.length = n) :
    (List.zipWith (fun row v => row ++ [v]) A b).length = n ∧
    (∀ r ∈ List.zipWith (fun row v => row ++ [v]) A b, r.length = n + 1) := by
  constructor
  · rw [List.length_zipWith, hA, hb]; omega
  · intro r hr
    have hlen : (List.zipWith (fun row v => row ++ [v]) A b).length = n := by
      rw [List.length_zipWith, hA, hb]; omega
    obtain ⟨k, hk, hkr⟩ := mem_iff_getD _ [] r hr
    rw [hlen] at hk
    rw [← hkr, zipAug_getD A b k (by omega) (by omega)]
    rw [List.length_append, hAr _ (getD_mem _ _ _ (by omega))]
    simp

theorem zipAug_bits (n : Nat) (A : List (List Int)) (b : List Int)
    (hA : A.length = n) (hAr : ∀ r ∈ A, r.length = n) (hb : b.length = n)
    (hbitsA : ∀ r ∈ A, ∀ v ∈ r, v = 0 ∨ v = 1) (hbitsb : ∀ v ∈ b, v = 0 ∨ v = 1) :
    ∀ r ∈ List.zipWith (fun row v => row ++ [v]) A b, ∀ v ∈ r, v = 0 ∨ v = 1 := by
  intro r hr v hv
  have hlen : (List.zipWith (fun row v => row ++ [v]) A b).length = n := by
    rw [List.length_zipWith, hA, hb]; omega
  obtain ⟨k, hk, hkr⟩ := mem_iff_getD _ [] r hr
  rw [hlen] at hk
  rw [← hkr, zipAug_getD A b k (by omega) (by omega)] at hv
  rcases List.mem_append.mp hv with h | h
  · exact hbitsA _ (getD_mem _ _ _ (by omega)) v h
  · rw [List.mem_singleton.mp h]
    exact hbitsb _ (getD_mem _ _ _ (by omega))

theorem zipAug_cellv (n : Nat) (A : List (List Int)) (b : List Int)
    (hA : A.length = n) (hAr : ∀ r ∈ A, r.length = n) (hb : b.length = n)
    (r : Nat) (hr : r < n) :
    (∀ c, c < n →
      cellv (List.zipWith (fun row v => row ++ [v]) A b) r c = cellv A r c) ∧
    cellv (List.zipWith (fun row v => row ++ [v]) A b) r n = b.getD r 0 := by
  have hrowA : (A.getD r []).length = n := hAr _ (getD_mem _ _ _ (by omega))
  constructor
  · intro c hc
    unfold cellv
    rw [zipAug_getD A b r (by omega) (by omega),
      getD_append_left _ _ _ _ (by omega)]
  · unfold cellv
    rw [zipAug_getD A b r (by omega) (by omega),
      getD_append_right _ _ _ _ (by omega), hrowA]
    simp [List.getD]

theorem sat_zipAug_iff (n : Nat) (A : List (List Int)) (b : List Int)
    (hA : A.length = n) (hAr : ∀ r ∈ A, r.length = n) (hb : b.length = n)
    (x : Nat → ZMod 2) :
    Sat n (List.zipWith (fun row v => row ++ [v]) A b) x ↔ SysSat n A b x := by
  have hlen : (List.zipWith (fun row v => row ++ [v]) A b).length = n := by
    rw [List.length_zipWith, hA, hb]; omega
  constructor
  · intro h r hr
    have hrm : (List.zipWith (fun row v => row ++ [v]) A b).getD r [] ∈
        List.zipWith (fun row v => row ++ [v]) A b := getD_mem _ _ _ (by omega)
    have hs := h _ hrm
    unfold SatRow rowSum at hs
    obtain ⟨hcoef, hrhs⟩ := zipAug_cellv n A b hA hAr hb r hr
    unfold cellv at hcoef hrhs
    calc ∑ c ∈ Finset.range n, ((cellv A r c : Int) : ZMod 2) * x c
        = ∑ c ∈ Finset.range n,
            ((((List.zipWith (fun row v => row ++ [v]) A b).getD r []).getD c 0 : Int) :
              ZMod 2) * x c := by
          apply Finset.sum_congr rfl
          intro c hc
          rw [Finset.mem_range] at hc
          unfold cellv
          rw [hcoef c hc]
      _ = ((((List.zipWith (fun row v => row ++ [v]) A b).getD r []).getD n 0 : Int) :
            ZMod 2) := hs
      _ = ((b.getD r 0 : Int) : ZMod 2) := by rw [hrhs]
  · intro h q hq
    obtain ⟨k, hk, hkr⟩ := mem_iff_getD _ [] q hq
    rw [hlen] at hk
    obtain ⟨hcoef, hrhs⟩ := zipAug_cellv n A b hA hAr hb k hk
    unfold cellv at hcoef hrhs
    unfold SatRow rowSum
    rw [← hkr]
    calc ∑ c ∈ Finset.range n,
          ((((List.zipWith (fun row v => row ++ [v]) A b).getD k []).getD c 0 : Int) :
            ZMod 2) * x c
        = ∑ c ∈ Finset.range n, ((cellv A k c : Int) : ZMod 2) * x c := by
          apply Finset.sum_congr rfl
          intro c hc
          rw [Finset.mem_range] at hc
          unfold cellv
          rw [hcoef c hc]
      _ = ((b.getD k 0 : Int) : ZMod 2) := h k hk
      _ = ((((List.zipWith (fun row v => row ++ [v]) A b).getD k []).getD n 0 : Int) :
            ZMod 2) := by rw [hrhs]

/-! ### Back substitution -/

theorem getD_dropLast {α : Type} (l : List α) (m : Nat) (d : α) (h : m + 1 < l.length) :
    l.dropLast.getD m d = l.getD m d := by
  induction l generalizing m with
  | nil => simp at h
  | cons a t ih =>
    cases t with
    | nil => simp at h
    | cons b t2 =>
      cases m with
      | zero => simp [List.getD, List.dropLast]
      | succ k =>
        have hk := ih k (by simpa using h)
        simpa [List.getD, List.dropLast] using hk

theorem findIdx?_from {α : Type} (p : α → Bool) (d : α) :
    ∀ (l : List α) (s k : Nat), k < l.length → p (l.getD k d) = true →
      (∀ m, m < k → p (l.getD m d) = false) →
      List.findIdx? p l s = some (s + k) := by
  intro l
  induction l with
  | nil => intro s k hk _ _; simp at hk
  | cons a t ih =>
    intro s k hk hpk hbef
    cases k with
    | zero =>
      simp only [List.getD_cons_zero] at hpk
      simp [List.findIdx?, hpk]
    | succ k2 =>
      have ha : p a = false := by
        have := hbef 0 (by omega)
        simpa [List.getD] using this
      have ht := ih (s + 1) k2 (by simpa using hk)
        (by simpa [List.getD] using hpk)
        (fun m hm => by
          have := hbef (m + 1) (by omega)
          simpa [List.getD] using this)
      simp only [List.findIdx?, ha]
      rw [show s + (k2 + 1) = s + 1 + k2 by omega]
      exact ht

theorem pairwise_getD_lt (ps : List Nat) (h : ps.Pairwise (· < ·))
    (i j : Nat) (hij : i < j) (hj : j < ps.length) :
    ps.getD i 0 < ps.getD j 0 := by
  rw [getD_eq_getElem _ _ _ (by omega), getD_eq_getElem _ _ _ hj]
  have := List.pairwise_iff_get.mp h ⟨i, by omega⟩ ⟨j, hj⟩ hij
  simpa using this

theorem pivotRow_firstOne (n rank : Nat) (M : List (List Int)) (ps : List Nat)
    (hinv : ElimInv n n M rank ps) (i : Nat) (hi : i < rank) :
    ((M.getD i []).dropLast).findIdx? (fun v => v == 1) = some (ps.getD i 0) := by
  have hin : i < n := by have := hinv.rank_le_n; omega
  have hrowlen : (M.getD i []).length = n + 1 :=
    hinv.rowlen _ (getD_mem _ _ _ (by rw [hinv.len]; omega))
  have hdl : (M.getD i []).dropLast.length = n := by
    rw [List.length_dropLast, hrowlen]
    omega
  have hplt : ps.getD i 0 < n :=
    hinv.ps_lt _ (getD_mem _ _ _ (by rw [hinv.ps_len]; omega))
  have h1 := findIdx?_from (fun v => v == 1) 0 ((M.getD i []).dropLast) 0
    (ps.getD i 0) (by omega)
    (by
      rw [getD_dropLast _ _ _ (by omega)]
      have := hinv.pivot_one i hi
      unfold cellv at this
      rw [this]
      rfl)
    (fun m hm => by
      rw [getD_dropLast _ _ _ (by omega)]
      have := hinv.left_zero i hi m hm
      unfold cellv at this
      rw [this]
      rfl)
  simpa using h1

theorem backSubStep_pivot (n rank : Nat) (M : List (List Int)) (ps : List Nat)
    (hinv : ElimInv n n M rank ps) (m : Nat) (hmr : m < rank) (x : List Int) :
    backSubStep n rank M x m = x.set (ps.getD m 0) (cellv M m n) := by
  unfold backSubStep
  rw [if_pos hmr, pivotRow_firstOne n rank M ps hinv m hmr]
  rfl

theorem backSubStep_skip (n rank : Nat) (M : List (List Int)) (m : Nat)
    (hmr : ¬m < rank) (x : List Int) : backSubStep n rank M x m = x := by
  unfold backSubStep
  rw [if_neg hmr]

theorem backSub_partial (n rank : Nat) (M : List (List Int)) (ps : List Nat)
    (hinv : ElimInv n n M rank ps) :
    ∀ m, m ≤ n →
      ((List.range m).foldl (backSubStep n rank M)
          (List.replicate n (0 : Int))).length = n ∧
      (∀ i, i < m → i < rank →
        ((List.range m).foldl (backSubStep n rank M)
            (List.replicate n (0 : Int))).getD (ps.getD i 0) 0 = cellv M i n) ∧
      (∀ j, j < n → (∀ i, i < m → i < rank → j ≠ ps.getD i 0) →
        ((List.range m).foldl (backSubStep n rank M)
            (List.replicate n (0 : Int))).getD j 0 = 0) ∧
      (∀ v ∈ (List.range m).foldl (backSubStep n rank M)
          (List.replicate n (0 : Int)), v = 0 ∨ v = 1) := by
  intro m
  induction m with
  | zero =>
    intro _
    refine ⟨by simp, ?_, ?_, ?_⟩
    · intro i hi _; exact absurd hi (by omega)
    · intro j hj _
      simp only [List.range_zero, List.foldl_nil]
      exact getD_replicate_zero n j
    · intro v hv
      simp only [List.range_zero, List.foldl_nil] at hv
      exact Or.inl (List.eq_of_mem_replicate hv)
  | succ m ih =>
    intro hm
    obtain ⟨ihlen, ihpiv, ihzero, ihbits⟩ := ih (by omega)
    rw [List.range_succ, List.foldl_append, List.foldl_cons, List.foldl_nil]
    by_cases hmr : m < rank
    · rw [backSubStep_pivot n rank M ps hinv m hmr]
      have hpm : ps.getD m 0 < n :=
        hinv.ps_lt _ (getD_mem _ _ _ (by rw [hinv.ps_len]; omega))
      refine ⟨by rw [List.length_set, ihlen], ?_, ?_, ?_⟩
      · intro i hi hir
        rcases Nat.lt_or_ge i m with hlt | hge
        · have hne : ps.getD m 0 ≠ ps.getD i 0 := by
            have := pairwise_getD_lt ps hinv.ps_mono i m hlt (by rw [hinv.ps_len]; omega)
            omega
          rw [getD_set_ne _ _ _ _ _ hne]
          exact ihpiv i hlt hir
        · have hieq : i = m := by omega
          rw [hieq, getD_set_eq _ _ _ _ (by rw [ihlen]; omega)]
      · intro j hj hne
        have hjm : j ≠ ps.getD m 0 := hne m (by omega) hmr
        rw [getD_set_ne _ _ _ _ _ (fun h => hjm h.symm)]
        exact ihzero j hj (fun i hi hir => hne i (by omega) hir)
      · intro v hv
        rcases List.mem_or_eq_of_mem_set hv with h | h
        · exact ihbits v h
        · rw [h]
          exact cellv_bits n M hinv.len hinv.rowlen hinv.bits m n
            (by have := hinv.rank_le_n; omega) (by omega)
    · rw [backSubStep_skip n rank M m hmr]
      refine ⟨ihlen, ?_, ?_, ihbits⟩
      · intro i hi hir
        have : i < m := by omega
        exact ihpiv i this hir
      · intro j hj hne
        exact ihzero j hj (fun i hi hir => hne i (by omega) hir)

theorem backSub_final (n rank : Nat) (M : List (List Int)) (ps : List Nat)
    (hinv : ElimInv n n M rank ps) :
    (backSub n rank M).length = n ∧
    (∀ i, i < rank → (backSub n rank M).getD (ps.getD i 0) 0 = cellv M i n) ∧
    (∀ j, j < n → j ∉ ps → (backSub n rank M).getD j 0 = 0) ∧
    (∀ v ∈ backSub n rank M, v = 0 ∨ v = 1) := by
  obtain ⟨h1, h2, h3, h4⟩ := backSub_partial n rank M ps hinv n (by omega)
  refine ⟨h1, ?_, ?_, h4⟩
  · intro i hi
    exact h2 i (by have := hinv.rank_le_n; omega) hi
  · intro j hj hjps
    refine h3 j hj (fun i hi hir hje => ?_)
    exact hjps (hje ▸ getD_mem _ _ _ (by rw [hinv.ps_len]; omega))

/-! ### The consistency check -/

theorem inconsistentCheck_iff (n rank : Nat) (M : List (List Int))
    (hrk : rank ≤ n) (hlen : M.length = n) (hrows : ∀ r ∈ M, r.length = n + 1) :
    inconsistentCheck n rank M = true ↔
      ∃ r, rank ≤ r ∧ r < n ∧ cellv M r n = 1 ∧ ∀ k, k < n → cellv M r k = 0 := by
  unfold inconsistentCheck
  rw [List.any_eq_true]
  constructor
  · rintro ⟨r, hr, hpred⟩
    rw [List.mem_range'_1] at hr
    have hrn : r < n := by omega
    have hrowlen : (M.getD r []).length = n + 1 :=
      hrows _ (getD_mem _ _ _ (by omega))
    rw [Bool.and_eq_true, beq_iff_eq, List.all_eq_true] at hpred
    refine ⟨r, by omega, hrn, hpred.1, ?_⟩
    intro k hk
    have hmem : (M.getD r []).dropLast.getD k 0 ∈ (M.getD r []).dropLast :=
      getD_mem _ _ _ (by rw [List.length_dropLast, hrowlen]; omega)
    have := hpred.2 _ hmem
    rw [beq_iff_eq] at this
    unfold cellv
    rw [← getD_dropLast (M.getD r []) k 0 (by omega)]
    exact this
  · rintro ⟨r, hr1, hr2, hone, hzero⟩
    refine ⟨r, by rw [List.mem_range'_1]; omega, ?_⟩
    rw [Bool.and_eq_true, beq_iff_eq, List.all_eq_true]
    refine ⟨hone, ?_⟩
    intro v hv
    have hrowlen : (M.getD r []).length = n + 1 :=
      hrows _ (getD_mem _ _ _ (by omega))
    obtain ⟨k, hk, hkv⟩ := mem_iff_getD _ 0 v hv
    rw [List.length_dropLast, hrowlen] at hk
    rw [beq_iff_eq, ← hkv, getD_dropLast _ _ _ (by omega)]
    have := hzero k (by omega)
    unfold cellv at this
    exact this

/-! ### The central correctness theorem of the GF(2) solver -/

theorem solve_gf2_via_P (A : List (List Int)) (b : List Int) :
    solve_gf2 A b =
      if inconsistentCheck b.length
          (eliminateP b.length (List.zipWith (fun r v => r ++ [v]) A b)).1.2
          (eliminateP b.length (List.zipWith (fun r v => r ++ [v]) A b)).1.1
      then none
      else some (backSub b.length
          (eliminateP b.length (List.zipWith (fun r v => r ++ [v]) A b)).1.2
          (eliminateP b.length (List.zipWith (fun r v => r ++ [v]) A b)).1.1) := by
  simp only [solve_gf2, eliminate, eliminateP]
  rw [← eliminateP_fst b.length (List.zipWith (fun r v => r ++ [v]) A b) b.length]

theorem eliminateP_final (n : Nat) (M0 : List (List Int))
    (hlen : M0.length = n) (hrow : ∀ r ∈ M0, r.length = n + 1)
    (hb : ∀ r ∈ M0, ∀ v ∈ r, v = 0 ∨ v = 1) :
    ElimInv n n (eliminateP n M0).1.1 (eliminateP n M0).1.2 (eliminateP n M0).2 ∧
    ∀ x, Sat n (eliminateP n M0).1.1 x ↔ Sat n M0 x :=
  eliminateP_inv_sat n M0 hlen hrow hb n (Nat.le_refl n)

theorem solve_gf2_spec (A : List (List Int)) (b : List Int)
    (hA : A.length = b.length) (hAr : ∀ r ∈ A, r.length = b.length)
    (hbitsA : ∀ r ∈ A, ∀ v ∈ r, v = 0 ∨ v = 1)
    (hbitsb : ∀ v ∈ b, v = 0 ∨ v = 1) :
    (∀ x, solve_gf2 A b = some x →
      x.length = b.length ∧ (∀ v ∈ x, v = 0 ∨ v = 1) ∧
      SysSat b.length A b (fun c => ((x.getD c 0 : Int) : ZMod 2))) ∧
    (solve_gf2 A b = none → ∀ y, ¬SysSat b.length A b y) := by
  obtain ⟨hM0len, hM0rows⟩ := zipAug_shape b.length A b hA hAr rfl
  have hM0bits := zipAug_bits b.length A b hA hAr rfl hbitsA hbitsb
  obtain ⟨hinv, hsat⟩ := eliminateP_final b.length
    (List.zipWith (fun r v => r ++ [v]) A b) hM0len hM0rows hM0bits
  rw [solve_gf2_via_P A b]
  by_cases hchk : inconsistentCheck b.length
      (eliminateP b.length (List.zipWith (fun r v => r ++ [v]) A b)).1.2
      (eliminateP b.length (List.zipWith (fun r v => r ++ [v]) A b)).1.1
  · rw [if_pos hchk]
    refine ⟨fun x hx => Option.noConfusion hx, fun _ y hy => ?_⟩
    obtain ⟨r, hr1, hr2, hone, hzero⟩ :=
      (inconsistentCheck_iff _ _ _ hinv.rank_le_n hinv.len hinv.rowlen).mp hchk
    have hSatMf : Sat b.length
        (eliminateP b.length (List.zipWith (fun r v => r ++ [v]) A b)).1.1 y :=
      (hsat y).mpr ((sat_zipAug_iff b.length A b hA hAr rfl y).mpr hy)
    have hrow := hSatMf _ (getD_mem _ r [] (by rw [hinv.len]; omega))
    unfold SatRow rowSum at hrow
    have hlhs : (∑ c ∈ Finset.range b.length,
        ((((eliminateP b.length (List.zipWith (fun r v => r ++ [v]) A b)).1.1.getD
          r []).getD c 0 : Int) : ZMod 2) * y c) = 0 := by
      apply Finset.sum_eq_zero
      intro c hc
      rw [Finset.mem_range] at hc
      have := hzero c hc
      unfold cellv at this
      rw [this]
      simp
    rw [hlhs] at hrow
    unfold cellv at hone
    rw [hone] at hrow
    simp at hrow
  · rw [if_neg hchk]
    refine ⟨fun x hx => ?_, fun h => Option.noConfusion h⟩
    have hxval : x = backSub b.length
        (eliminateP b.length (List.zipWith (fun r v => r ++ [v]) A b)).1.2
        (eliminateP b.length (List.zipWith (fun r v => r ++ [v]) A b)).1.1 :=
      (Option.some.injEq _ _ ▸ hx).symm
    obtain ⟨hblen, hbpiv, hbzero, hbbits⟩ :=
      backSub_final b.length
        (eliminateP b.length (List.zipWith (fun r v => r ++ [v]) A b)).1.2
        (eliminateP b.length (List.zipWith (fun r v => r ++ [v]) A b)).1.1
        (eliminateP b.length (List.zipWith (fun r v => r ++ [v]) A b)).2 hinv
    rw [hxval]
    refine ⟨hblen, hbbits, ?_⟩
    rw [← sat_zipAug_iff b.length A b hA hAr rfl, ← hsat]
    intro row hrowm
    obtain ⟨k, hk, hkr⟩ := mem_iff_getD _ [] row hrowm
    rw [hinv.len] at hk
    rw [← hkr]
    unfold SatRow rowSum
    simp only []
    rcases Nat.lt_or_ge k (eliminateP b.length
        (List.zipWith (fun r v => r ++ [v]) A b)).1.2 with hkrank | hkrank
    · -- pivot row: only the pivot column contributes
      have hpk : (eliminateP b.length (List.zipWith (fun r v => r ++ [v]) A b)).2.getD
          k 0 < b.length :=
        hinv.ps_lt _ (getD_mem _ _ _ (by rw [hinv.ps_len]; omega))
      rw [Finset.sum_eq_single_of_mem
        ((eliminateP b.length (List.zipWith (fun r v => r ++ [v]) A b)).2.getD k 0)
        (Finset.mem_range.mpr hpk) ?side]
      case side =>
        intro c hc hne
        rw [Finset.mem_range] at hc
        by_cases hcps : c ∈ (eliminateP b.length
            (List.zipWith (fun r v => r ++ [v]) A b)).2
        · obtain ⟨i, hi, hiv⟩ := mem_iff_getD _ 0 c hcps
          rw [hinv.ps_len] at hi
          have hik : i ≠ k := fun hik => hne (by rw [← hiv, hik])
          have := hinv.pivot_col i hi k (by have := hinv.rank_le_n; omega)
            (fun hki => hik hki.symm)
          rw [← hiv]
          unfold cellv at this
          rw [this]
          simp
        · have := hbzero c hc hcps
          rw [this]
          simp
      have h1 := hinv.pivot_one k hkrank
      unfold cellv at h1
      rw [h1]
      have h2 := hbpiv k hkrank
      rw [h2]
      unfold cellv
      simp
    · -- non-pivot row: all coefficients are zero, and the check passed
      have hzero2 : ∀ c, c < b.length →
          cellv (eliminateP b.length (List.zipWith (fun r v => r ++ [v]) A b)).1.1
            k c = 0 :=
        fun c hc => hinv.below_zero k hkrank hk c hc
      have hlhs : (∑ c ∈ Finset.range b.length,
          ((((eliminateP b.length (List.zipWith (fun r v => r ++ [v]) A b)).1.1.getD
            k []).getD c 0 : Int) : ZMod 2) *
            ((((backSub b.length
              (eliminateP b.length (List.zipWith (fun r v => r ++ [v]) A b)).1.2
              (eliminateP b.length (List.zipWith (fun r v => r ++ [v]) A b)).1.1).getD
                c 0 : Int)) : ZMod 2)) = 0 := by
        apply Finset.sum_eq_zero
        intro c hc
        rw [Finset.mem_range] at hc
        have := hzero2 c hc
        unfold cellv at this
        rw [this]
        simp
      rw [hlhs]
      have hnot : ¬(cellv (eliminateP b.length
          (List.zipWith (fun r v => r ++ [v]) A b)).1.1 k b.length = 1 ∧
          ∀ c, c < b.length →
            cellv (eliminateP b.length
              (List.zipWith (fun r v => r ++ [v]) A b)).1.1 k c = 0) := by
        intro ⟨h1, h2⟩
        exact hchk ((inconsistentCheck_iff _ _ _ hinv.rank_le_n hinv.len
          hinv.rowlen).mpr ⟨k, hkrank, hk, h1, h2⟩)
      have hne1 : cellv (eliminateP b.length
          (List.zipWith (fun r v => r ++ [v]) A b)).1.1 k b.length ≠ 1 :=
        fun h1 => hnot ⟨h1, hzero2⟩
      rcases cellv_bits b.length _ hinv.len hinv.rowlen hinv.bits k b.length hk
        (by omega) with h0 | h1
      · unfold cellv at h0
        rw [h0]
        simp
      · exact absurd h1 hne1

/-! ### Claims C3 and C4: failure characterization and back-substitution -/

/-- C3: `_solve_gf2` returns `None` exactly when, after forward
elimination, some row has all coefficient entries 0 and augmented entry
1; it has no other failure mode — for every (well-formed 0/1) input it
returns either `None` or a solution vector.  (`eliminate` is the forward
elimination of the code; its second component is the pivot-row count.) -/
theorem c3_gf2_failure_iff (A : List (List Int)) (b : List Int)
    (hA : A.length = b.length) (hAr : ∀ r ∈ A, r.length = b.length)
    (hbitsA : ∀ r ∈ A, ∀ v ∈ r, v = 0 ∨ v = 1)
    (hbitsb : ∀ v ∈ b, v = 0 ∨ v = 1) :
    (solve_gf2 A b = none ↔
      ∃ r, r < b.length ∧
        (∀ k, k < b.length →
          cellv (eliminate b.length (List.zipWith (fun row v => row ++ [v]) A b)).1
            r k = 0) ∧
        cellv (eliminate b.length (List.zipWith (fun row v => row ++ [v]) A b)).1 r
          b.length = 1) ∧
    (solve_gf2 A b = none ∨ ∃ x, solve_gf2 A b = some x) := by
  obtain ⟨hM0len, hM0rows⟩ := zipAug_shape b.length A b hA hAr rfl
  have hM0bits := zipAug_bits b.length A b hA hAr rfl hbitsA hbitsb
  obtain ⟨hinv, _⟩ := eliminateP_final b.length
    (List.zipWith (fun r v => r ++ [v]) A b) hM0len hM0rows hM0bits
  have helim : eliminate b.length (List.zipWith (fun row v => row ++ [v]) A b) =
      (eliminateP b.length (List.zipWith (fun row v => row ++ [v]) A b)).1 := by
    unfold eliminate eliminateP
    exact (eliminateP_fst _ _ _).symm
  constructor
  · rw [solve_gf2_via_P A b, helim]
    by_cases hchk : inconsistentCheck b.length
        (eliminateP b.length (List.zipWith (fun r v => r ++ [v]) A b)).1.2
        (eliminateP b.length (List.zipWith (fun r v => r ++ [v]) A b)).1.1
    · rw [if_pos hchk]
      obtain ⟨r, hr1, hr2, hone, hzero⟩ :=
        (inconsistentCheck_iff _ _ _ hinv.rank_le_n hinv.len hinv.rowlen).mp hchk
      exact ⟨fun _ => ⟨r, hr2, hzero, hone⟩, fun _ => rfl⟩
    · rw [if_neg hchk]
      constructor
      · intro h
        exact Option.noConfusion h
      · rintro ⟨r, hr, hzero, hone⟩
        exfalso
        apply hchk
        rw [inconsistentCheck_iff _ _ _ hinv.rank_le_n hinv.len hinv.rowlen]
        refine ⟨r, ?_, hr, hone, hzero⟩
        by_contra hlt
        have hrlt : r < (eliminateP b.length
            (List.zipWith (fun r v => r ++ [v]) A b)).1.2 := by omega
        have hp1 := hinv.pivot_one r hrlt
        have hplt : (eliminateP b.length
            (List.zipWith (fun r v => r ++ [v]) A b)).2.getD r 0 < b.length :=
          hinv.ps_lt _ (getD_mem _ _ _ (by rw [hinv.ps_len]; omega))
        rw [hzero _ hplt] at hp1
        exact absurd hp1 (by decide)
  · rw [solve_gf2_via_P A b]
    by_cases hchk : inconsistentCheck b.length
        (eliminateP b.length (List.zipWith (fun r v => r ++ [v]) A b)).1.2
        (eliminateP b.length (List.zipWith (fun r v => r ++ [v]) A b)).1.1
    · rw [if_pos hchk]
      exact Or.inl rfl
    · rw [if_neg hchk]
      exact Or.inr ⟨_, rfl⟩

/-- C3 witness: the inconsistent 2-variable system `x = 1, x = 0`. -/
theorem c3_witness :
    ([[1, 0], [1, 0]] : List (List Int)).length = ([1, 0] : List Int).length ∧
    ((solve_gf2 [[1, 0], [1, 0]] [1, 0] = none ↔
      ∃ r, r < ([1, 0] : List Int).length ∧
        (∀ k, k < ([1, 0] : List Int).length →
          cellv (eliminate ([1, 0] : List Int).length
            (List.zipWith (fun row v => row ++ [v]) [[1, 0], [1, 0]] [1, 0])).1 r k = 0) ∧
        cellv (eliminate ([1, 0] : List Int).length
          (List.zipWith (fun row v => row ++ [v]) [[1, 0], [1, 0]] [1, 0])).1 r
          ([1, 0] : List Int).length = 1) ∧
    (solve_gf2 [[1, 0], [1, 0]] [1, 0] = none ∨
      ∃ x, solve_gf2 [[1, 0], [1, 0]] [1, 0] = some x)) :=
  ⟨by decide,
    c3_gf2_failure_iff [[1, 0], [1, 0]] [1, 0]
      (by decide) (by decide) (by decide) (by decide)⟩

/-- C4: when `_solve_gf2` succeeds, the returned vector is 0 at every
non-pivot column, equals the augmented entry of the corresponding pivot
row at each pivot column, and hence its set bits lie among the pivot
columns (`(eliminateP …).2` is the ordered list of pivot columns; the
pivot of the `i`-th pivot row is its `i`-th entry). -/
theorem c4_backsub_structure (A : List (List Int)) (b : List Int) (x : List Int)
    (hA : A.length = b.length) (hAr : ∀ r ∈ A, r.length = b.length)
    (hbitsA : ∀ r ∈ A, ∀ v ∈ r, v = 0 ∨ v = 1)
    (hbitsb : ∀ v ∈ b, v = 0 ∨ v = 1)
    (hx : solve_gf2 A b = some x) :
    (eliminateP b.length (List.zipWith (fun r v => r ++ [v]) A b)).2.length =
      (eliminateP b.length (List.zipWith (fun r v => r ++ [v]) A b)).1.2 ∧
    (∀ j, j < b.length →
      j ∉ (eliminateP b.length (List.zipWith (fun r v => r ++ [v]) A b)).2 →
      x.getD j 0 = 0) ∧
    (∀ i, i < (eliminateP b.length (List.zipWith (fun r v => r ++ [v]) A b)).1.2 →
      x.getD ((eliminateP b.length (List.zipWith (fun r v => r ++ [v]) A b)).2.getD
        i 0) 0 =
      cellv (eliminateP b.length (List.zipWith (fun r v => r ++ [v]) A b)).1.1 i
        b.length) ∧
    (∀ j, j < b.length → x.getD j 0 = 1 →
      j ∈ (eliminateP b.length (List.zipWith (fun r v => r ++ [v]) A b)).2) := by
  obtain ⟨hM0len, hM0rows⟩ := zipAug_shape b.length A b hA hAr rfl
  have hM0bits := zipAug_bits b.length A b hA hAr rfl hbitsA hbitsb
  obtain ⟨hinv, _⟩ := eliminateP_final b.length
    (List.zipWith (fun r v => r ++ [v]) A b) hM0len hM0rows hM0bits
  rw [solve_gf2_via_P A b] at hx
  by_cases hchk : inconsistentCheck b.length
      (eliminateP b.length (List.zipWith (fun r v => r ++ [v]) A b)).1.2
      (eliminateP b.length (List.zipWith (fun r v => r ++ [v]) A b)).1.1
  · rw [if_pos hchk] at hx
    exact Option.noConfusion hx
  · rw [if_neg hchk] at hx
    have hxval : x = backSub b.length
        (eliminateP b.length (List.zipWith (fun r v => r ++ [v]) A b)).1.2
        (eliminateP b.length (List.zipWith (fun r v => r ++ [v]) A b)).1.1 :=
      (Option.some.injEq _ _ ▸ hx).symm
    obtain ⟨hblen, hbpiv, hbzero, _⟩ :=
      backSub_final b.length
        (eliminateP b.length (List.zipWith (fun r v => r ++ [v]) A b)).1.2
        (eliminateP b.length (List.zipWith (fun r v => r ++ [v]) A b)).1.1
        (eliminateP b.length (List.zipWith (fun r v => r ++ [v]) A b)).2 hinv
    subst hxval
    refine ⟨hinv.ps_len, hbzero, hbpiv, ?_⟩
    intro j hj hone
    by_contra hjps
    rw [hbzero j hj hjps] at hone
    exact absurd hone (by decide)

/-- C4 witness: the 1 by 1 system with `A = [[1]]`, `b = [1]`. -/
theorem c4_witness :
    solve_gf2 [[1]] [1] = some [1] ∧
    ((eliminateP ([1] : List Int).length
        (List.zipWith (fun r v => r ++ [v]) [[1]] [1])).2.length =
      (eliminateP ([1] : List Int).length
        (List.zipWith (fun r v => r ++ [v]) [[1]] [1])).1.2 ∧
    (∀ j, j < ([1] : List Int).length →
      j ∉ (eliminateP ([1] : List Int).length
        (List.zipWith (fun r v => r ++ [v]) [[1]] [1])).2 →
      ([1] : List Int).getD j 0 = 0) ∧
    (∀ i, i < (eliminateP ([1] : List Int).length
        (List.zipWith (fun r v => r ++ [v]) [[1]] [1])).1.2 →
      ([1] : List Int).getD ((eliminateP ([1] : List Int).length
        (List.zipWith (fun r v => r ++ [v]) [[1]] [1])).2.getD i 0) 0 =
      cellv (eliminateP ([1] : List Int).length
        (List.zipWith (fun r v => r ++ [v]) [[1]] [1])).1.1 i
        ([1] : List Int).length) ∧
    (∀ j, j < ([1] : List Int).length → ([1] : List Int).getD j 0 = 1 →
      j ∈ (eliminateP ([1] : List Int).length
        (List.zipWith (fun r v => r ++ [v]) [[1]] [1])).2)) :=
  ⟨by decide,
    c4_backsub_structure [[1]] [1] [1]
      (by decide) (by decide) (by decide) (by decide) (by decide)⟩

/-! ### Flattening the grid -/

theorem join_length (size : Nat) (g : Grid) (hw : Wf size g) :
    g.join.length = size * size := by
  rw [List.length_join]
  have hmap : g.map List.length = List.replicate size size :=
    List.eq_replicate.mpr ⟨by simp [hw.1], fun b hb => by
      obtain ⟨r, hr, hrb⟩ := List.mem_map.mp hb
      rw [← hrb]
      exact hw.2 r hr⟩
  rw [hmap, List.sum_replicate, smul_eq_mul]

theorem join_getD (size : Nat) :
    ∀ (g : Grid), (∀ r ∈ g, r.length = size) → ∀ i j, i < g.length → j < size →
      g.join.getD (i * size + j) 0 = cellv g i j := by
  intro g
  induction g with
  | nil => intro _ i j hi _; simp at hi
  | cons r t ih =>
    intro hrows i j hi hj
    have hrlen : r.length = size := hrows r (List.mem_cons_self _ _)
    cases i with
    | zero =>
      simp only [List.join_cons, Nat.zero_mul, Nat.zero_add]
      rw [getD_append_left _ _ _ _ (by omega)]
      rfl
    | succ i2 =>
      simp only [List.join_cons]
      have hidx : (i2 + 1) * size + j = r.length + (i2 * size + j) := by
        rw [hrlen]; ring
      rw [hidx, getD_append_right _ _ _ _ (by omega)]
      rw [Nat.add_sub_cancel_left]
      have := ih (fun q hq => hrows q (List.mem_cons_of_mem _ hq)) i2 j
        (by simpa using hi) hj
      rw [this]
      rfl

theorem join_bits (g : Grid) (hb : Bits g) : ∀ v ∈ g.join, v = 0 ∨ v = 1 := by
  intro v hv
  rw [List.mem_join] at hv
  obtain ⟨l, hl, hvl⟩ := hv
  exact hb l hl v hvl

/-! ### Decoding `solve` and folding presses -/

theorem solve_eq_some_iff (size : Nat) (grid : Grid) (moves : List (Nat × Nat)) :
    solve size grid = some moves ↔
      ∃ x, solve_gf2 (build_transition_matrix size) grid.join = some x ∧
        moves = ((x.enum.filter (fun p => p.2 == 1)).map (fun p => idx_to_pos size p.1)) := by
  unfold solve
  cases h : solve_gf2 (build_transition_matrix size) grid.join with
  | none => simp [h]
  | some x0 => simp [h, eq_comm]

theorem zmod2_one_sub (x : ZMod 2) : 1 - x = x + 1 := by
  revert x; decide

theorem applyMoves_some_bits (size : Nat) :
    ∀ (ms : List (Nat × Nat)) (g g2 : Grid), Bits g →
      applyMoves size g ms = some g2 → Bits g2 := by
  intro ms
  induction ms with
  | nil => intro g g2 hb h; simp [applyMoves] at h; exact h ▸ hb
  | cons m t ih =>
    intro g g2 hb h
    unfold applyMoves at h
    rw [List.foldlM_cons] at h
    cases h1 : apply_move size g m.1 m.2 with
    | none => rw [h1] at h; simp at h
    | some g1 =>
      rw [h1] at h
      simp only [Option.bind_eq_bind, Option.some_bind] at h
      exact ih g1 g2 (apply_move_some_bits size g g1 _ _ hb h1) (by
        unfold applyMoves
        simpa using h)

theorem applyMoves_cast (size : Nat) (ms : List (Nat × Nat)) :
    ∀ g : Grid, Wf size g → (∀ m ∈ ms, m.1 < size ∧ m.2 < size) →
    ∃ g2, applyMoves size g ms = some g2 ∧ Wf size g2 ∧
      ∀ i j, i < size → j < size →
        ((cellv g2 i j : Int) : ZMod 2) =
          ((cellv g i j : Int) : ZMod 2) +
            (ms.map (fun m => if PressTarget size (m.1 : Int) (m.2 : Int) i j
              then (1 : ZMod 2) else 0)).sum := by
  induction ms with
  | nil =>
    intro g hw _
    exact ⟨g, by simp [applyMoves], hw, fun i j _ _ => by simp⟩
  | cons m t ih =>
    intro g hw hbnd
    have hm := hbnd m (List.mem_cons_self _ _)
    obtain ⟨g1, h1, hw1, hcell1⟩ := apply_move_spec size g m.1 m.2 hw
      (Int.natCast_nonneg _) (by exact_mod_cast hm.1)
      (Int.natCast_nonneg _) (by exact_mod_cast hm.2)
    obtain ⟨g2, h2, hw2, hcell2⟩ := ih g1 hw1
      (fun q hq => hbnd q (List.mem_cons_of_mem _ hq))
    refine ⟨g2, ?_, hw2, ?_⟩
    · unfold applyMoves
      rw [List.foldlM_cons, h1]
      unfold applyMoves at h2
      simpa using h2
    · intro i j hi hj
      rw [hcell2 i j hi hj, List.map_cons, List.sum_cons]
      have hstep : ((cellv g1 i j : Int) : ZMod 2) =
          ((cellv g i j : Int) : ZMod 2) +
            (if PressTarget size (m.1 : Int) (m.2 : Int) i j
              then (1 : ZMod 2) else 0) := by
        rw [hcell1 i j hi hj]
        by_cases hP : PressTarget size (m.1 : Int) (m.2 : Int) i j
        · rw [if_pos hP, if_pos hP]
          push_cast
          rw [zmod2_one_sub]
        · rw [if_neg hP, if_neg hP, add_zero]
      rw [hstep]
      ring

/-! ### Summing over the set bits of the solution vector -/

theorem mem_enumFrom_bounds {α : Type} :
    ∀ (x : List α) (s : Nat) (p : Nat × α), p ∈ x.enumFrom s →
      s ≤ p.1 ∧ p.1 < s + x.length := by
  intro x
  induction x with
  | nil => intro s p h; simp at h
  | cons a t ih =>
    intro s p h
    rw [List.enumFrom_cons, List.mem_cons] at h
    rcases h with h | h
    · rw [h]
      constructor
      · exact Nat.le_refl s
      · simp
    · have := ih (s + 1) p h
      constructor
      · omega
      · simp only [List.length_cons]
        omega

theorem enumFrom_filter_sum (f : Nat → ZMod 2) :
    ∀ (x : List Int) (s : Nat), (∀ v ∈ x, v = 0 ∨ v = 1) →
      (((x.enumFrom s).filter (fun p => p.2 == 1)).map (fun p => f p.1)).sum =
        ∑ k ∈ Finset.range x.length, ((x.getD k 0 : Int) : ZMod 2) * f (s + k) := by
  intro x
  induction x with
  | nil => intro s _; simp
  | cons v t ih =>
    intro s hb
    have hv := hb v (List.mem_cons_self _ _)
    have ht := fun q hq => hb q (List.mem_cons_of_mem _ hq)
    rw [List.enumFrom_cons]
    have hsucc : (∑ k ∈ Finset.range (t.length + 1),
        (((v :: t).getD k 0 : Int) : ZMod 2) * f (s + k)) =
        (∑ k ∈ Finset.range t.length,
          (((v :: t).getD (k + 1) 0 : Int) : ZMod 2) * f (s + (k + 1))) +
          (((v :: t).getD 0 0 : Int) : ZMod 2) * f (s + 0) :=
      Finset.sum_range_succ' _ _
    simp only [List.getD_cons_succ, List.getD_cons_zero] at hsucc
    rw [List.length_cons, hsucc]
    have hshift : (∑ k ∈ Finset.range t.length,
        ((t.getD k 0 : Int) : ZMod 2) * f (s + (k + 1))) =
        ∑ k ∈ Finset.range t.length,
          ((t.getD k 0 : Int) : ZMod 2) * f ((s + 1) + k) := by
      apply Finset.sum_congr rfl
      intro k _
      rw [show s + (k + 1) = (s + 1) + k by omega]
    rw [hshift, ← ih (s + 1) ht]
    rcases hv with h0 | h1
    · rw [h0]
      rw [List.filter_cons]
      simp
    · rw [h1]
      rw [List.filter_cons]
      simp only [show (((1 : Int) == 1)) = true from rfl, if_true, List.map_cons,
        List.sum_cons]
      push_cast
      ring_nf

/-! ### C1: solutions returned by `solve` solve the puzzle, in any order -/

theorem moves_inrange (size : Nat) (x : List Int) (hs : 0 < size)
    (hlen : x.length = size * size) :
    ∀ m ∈ (x.enum.filter (fun p => p.2 == 1)).map (fun p => idx_to_pos size p.1),
      m.1 < size ∧ m.2 < size := by
  intro m hm
  rw [List.mem_map] at hm
  obtain ⟨p, hp, hpm⟩ := hm
  have hp2 := List.mem_of_mem_filter hp
  have hb := mem_enumFrom_bounds x 0 p hp2
  rw [← hpm]
  unfold idx_to_pos
  obtain ⟨h1, h2⟩ := row_lt_of_idx_lt size p.1 hs (by omega)
  exact ⟨h1, h2⟩

/-- The GF(2) sum of the toggle indicators of the returned move list at a
fixed target cell equals the corresponding entry of the flattened grid. -/
theorem moves_sum_eq (size : Nat) (grid : Grid) (x : List Int)
    (hs : 0 < size) (hw : Wf size grid) (hb : Bits grid)
    (hxlen : x.length = size * size) (hxbits : ∀ v ∈ x, v = 0 ∨ v = 1)
    (hsys : SysSat (grid.join.length) (build_transition_matrix size) grid.join
      (fun c => ((x.getD c 0 : Int) : ZMod 2)))
    (i j : Nat) (hi : i < size) (hj : j < size) :
    (((x.enum.filter (fun p => p.2 == 1)).map (fun p => idx_to_pos size p.1)).map
      (fun m => if PressTarget size (m.1 : Int) (m.2 : Int) i j
        then (1 : ZMod 2) else 0)).sum =
      ((cellv grid i j : Int) : ZMod 2) := by
  have hn : grid.join.length = size * size := join_length size grid hw
  have hj' : i * size + j < size * size := enc_lt size i j hi hj
  obtain ⟨hdj, hmj⟩ := div_mod_encode size i j hj
  rw [List.map_map]
  have henum : x.enum = x.enumFrom 0 := rfl
  rw [henum]
  have hcomp : ((fun m => if PressTarget size ((m : Nat × Nat).1 : Int) (m.2 : Int) i j
        then (1 : ZMod 2) else 0) ∘ (fun p => idx_to_pos size (p : Nat × Int).1)) =
      fun p => (fun k => if PressTarget size (((k : Nat) / size : Nat) : Int)
        ((k % size : Nat) : Int) i j then (1 : ZMod 2) else 0) (p : Nat × Int).1 := by
    funext p
    rfl
  rw [hcomp, enumFrom_filter_sum (fun k => if PressTarget size ((k / size : Nat) : Int)
    ((k % size : Nat) : Int) i j then (1 : ZMod 2) else 0) x 0 hxbits]
  have hsum2 : (∑ k ∈ Finset.range x.length,
      ((x.getD k 0 : Int) : ZMod 2) *
        (if PressTarget size ((0 + k) / size : Nat) (((0 + k) % size : Nat) : Int) i j
          then (1 : ZMod 2) else 0)) =
      ∑ k ∈ Finset.range (size * size),
        ((cellv (build_transition_matrix size) (i * size + j) k : Int) : ZMod 2) *
          ((x.getD k 0 : Int) : ZMod 2) := by
    rw [hxlen]
    apply Finset.sum_congr rfl
    intro k hk
    rw [Finset.mem_range] at hk
    have hAkj : cellv (build_transition_matrix size) k (i * size + j) =
        if PressTarget size ((k / size : Nat) : Int) ((k % size : Nat) : Int)
          ((i * size + j) / size) ((i * size + j) % size) then 1 else 0 :=
      build_entry size hs k (i * size + j) hk hj'
    rw [hdj, hmj] at hAkj
    have hsymm : cellv (build_transition_matrix size) (i * size + j) k =
        cellv (build_transition_matrix size) k (i * size + j) := by
      rw [build_entry size hs (i * size + j) k hj' hk,
        build_entry size hs k (i * size + j) hk hj']
      by_cases hP : PressTarget size ((k / size : Nat) : Int) ((k % size : Nat) : Int)
          ((i * size + j) / size) ((i * size + j) % size)
      · rw [if_pos hP, if_pos ((pressTarget_symm size _ _ _ _).mpr hP)]
      · rw [if_neg hP, if_neg (fun h => hP ((pressTarget_symm size _ _ _ _).mp h))]
    rw [hsymm, hAkj]
    rw [show (0 + k) = k by omega]
    by_cases hP : PressTarget size ((k / size : Nat) : Int) ((k % size : Nat) : Int) i j
    · rw [if_pos hP, if_pos hP]
      push_cast
      ring
    · rw [if_neg hP, if_neg hP]
      push_cast
      ring
  rw [hsum2]
  have hfin := hsys (i * size + j) (by rw [hn]; exact hj')
  rw [hn] at hfin
  rw [hfin]
  have := join_getD size grid hw.2 i j (by rw [hw.1]; exact hi) hj
  rw [this]

theorem cellv_bits_grid (n : Nat) (g : Grid) (hw : Wf n g) (hb : Bits g)
    (i j : Nat) (hi : i < n) (hj : j < n) : cellv g i j = 0 ∨ cellv g i j = 1 := by
  have hmem : g.getD i [] ∈ g := getD_mem _ _ _ (by rw [hw.1]; omega)
  have hjm : (g.getD i []).getD j 0 ∈ g.getD i [] :=
    getD_mem _ _ _ (by rw [hw.2 _ hmem]; omega)
  exact hb _ hmem _ hjm

theorem cast_zero_of_bit (v : Int) (hb : v = 0 ∨ v = 1)
    (hc : ((v : Int) : ZMod 2) = 0) : v = 0 := by
  rcases hb with h | h
  · exact h
  · rw [h] at hc
    exact absurd hc (by decide)

theorem is_solved_of_cells (size : Nat) (g : Grid) (hw : Wf size g)
    (h : ∀ i j, i < size → j < size → cellv g i j = 0) : is_solved g = true := by
  unfold is_solved
  rw [List.all_eq_true]
  intro row hrow
  rw [List.all_eq_true]
  intro v hv
  obtain ⟨i, hi, hir⟩ := mem_iff_getD g [] row hrow
  obtain ⟨j, hjl, hjv⟩ := mem_iff_getD row 0 v hv
  rw [hw.1] at hi
  have hrowlen : row.length = size := hw.2 row hrow
  rw [hrowlen] at hjl
  have : cellv g i j = v := by
    unfold cellv
    rw [hir, hjv]
  rw [beq_iff_eq, ← hjv, ← hir]
  exact h i j hi hjl

/-- C1: if `solve` returns a move list for an n by n 0/1 grid, then
applying `apply_move` at every position of that list — in any order,
i.e. for every permutation `ms` of the list — turns the grid into the
all-off grid (`is_solved`). -/
theorem c1_solution_correctness (size : Nat) (grid : Grid)
    (moves ms : List (Nat × Nat)) (hw : Wf size grid) (hb : Bits grid)
    (hs : solve size grid = some moves) (hperm : ms.Perm moves) :
    ∃ g2, applyMoves size grid ms = some g2 ∧ is_solved g2 = true := by
  obtain ⟨x, hx, hmoves⟩ := (solve_eq_some_iff size grid moves).mp hs
  rcases Nat.eq_zero_or_pos size with hsz | hsz
  · subst hsz
    have hgrid : grid = [] := List.eq_nil_of_length_eq_zero hw.1
    subst hgrid
    have hx0 : x = [] := by
      have hlen : x.length = 0 := by
        have := ((solve_gf2_spec (build_transition_matrix 0) ([] : Grid).join
          (by decide) (by decide) (by decide) (by decide)).1 x hx).1
        simpa using this
      exact List.eq_nil_of_length_eq_zero hlen
    subst hx0
    have hmv : moves = [] := by rw [hmoves]; rfl
    subst hmv
    have hms : ms = [] := List.Perm.eq_nil hperm
    subst hms
    exact ⟨[], by simp [applyMoves], by decide⟩
  · have hA := build_shape size
    have hAbits := build_bits size
    have hn : grid.join.length = size * size := join_length size grid hw
    have hAlen : (build_transition_matrix size).length = grid.join.length := by
      rw [hA.1, hn]
    have hArows : ∀ r ∈ build_transition_matrix size, r.length = grid.join.length :=
      fun r hr => by rw [hA.2 r hr, hn]
    obtain ⟨hxlen, hxbits, hsys⟩ :=
      (solve_gf2_spec (build_transition_matrix size) grid.join hAlen hArows
        hAbits (join_bits grid hb)).1 x hx
    rw [hn] at hxlen
    have hmr : ∀ m ∈ ms, m.1 < size ∧ m.2 < size := by
      intro m hm
      exact moves_inrange size x hsz hxlen m (hmoves ▸ hperm.subset hm)
    obtain ⟨g2, hg2, hwg2, hcast⟩ := applyMoves_cast size ms grid hw hmr
    refine ⟨g2, hg2, ?_⟩
    have hbits2 : Bits g2 := applyMoves_some_bits size ms grid g2 hb hg2
    apply is_solved_of_cells size g2 hwg2
    intro i j hi hj
    apply cast_zero_of_bit _ (cellv_bits_grid size g2 hwg2 hbits2 i j hi hj)
    rw [hcast i j hi hj]
    have hsum : (ms.map (fun m => if PressTarget size (m.1 : Int) (m.2 : Int) i j
        then (1 : ZMod 2) else 0)).sum =
        (moves.map (fun m => if PressTarget size (m.1 : Int) (m.2 : Int) i j
          then (1 : ZMod 2) else 0)).sum :=
      (hperm.map _).sum_eq
    rw [hsum, hmoves, moves_sum_eq size grid x hsz hw hb hxlen hxbits hsys i j hi hj]
    exact zmod2_add_self _

/-- C1 witness: the 1 by 1 grid with its single light on. -/
theorem c1_witness :
    Wf 1 [[1]] ∧ Bits [[1]] ∧ solve 1 [[1]] = some [(0, 0)] ∧
    [(0, 0)].Perm [(0, 0)] ∧
    ∃ g2, applyMoves 1 [[1]] [(0, 0)] = some g2 ∧ is_solved g2 = true :=
  ⟨by decide, by decide, by decide, List.Perm.refl _,
    c1_solution_correctness 1 [[1]] [(0, 0)] [(0, 0)]
      (by decide) (by decide) (by decide) (List.Perm.refl _)⟩

/-! ### C2 and C9: generated puzzles are solvable; seeding is deterministic -/

theorem getD_replicate {α : Type} (n i : Nat) (a d : α) (h : i < n) :
    (List.replicate n a).getD i d = a := by
  induction n generalizing i with
  | zero => simp at h
  | succ m ih =>
    cases i with
    | zero => simp [List.replicate, List.getD]
    | succ k => simpa [List.replicate, List.getD] using ih k (by omega)

theorem init_grid_wf (size : Nat) :
    Wf size (List.replicate size (List.replicate size (0 : Int))) := by
  constructor
  · simp
  · intro r hr
    rw [List.eq_of_mem_replicate hr]
    simp

theorem init_grid_bits (size : Nat) :
    Bits (List.replicate size (List.replicate size (0 : Int))) := by
  intro r hr v hv
  rw [List.eq_of_mem_replicate hr] at hv
  exact Or.inl (List.eq_of_mem_replicate hv)

theorem init_grid_cellv (size : Nat) (i j : Nat) (hi : i < size) (hj : j < size) :
    cellv (List.replicate size (List.replicate size (0 : Int))) i j = 0 := by
  unfold cellv
  rw [getD_replicate _ _ _ _ hi, getD_replicate _ _ _ _ hj]

theorem sum_map_enc (size n : Nat) (F : Nat → ZMod 2) :
    ∀ ms : List (Nat × Nat), (∀ m ∈ ms, m.1 * size + m.2 < n) →
      (ms.map (fun m => F (m.1 * size + m.2))).sum =
        ∑ c ∈ Finset.range n,
          ((ms.countP (fun m => m.1 * size + m.2 == c) : Nat) : ZMod 2) * F c := by
  intro ms
  induction ms with
  | nil => simp
  | cons m t ih =>
    intro hb
    have hm := hb m (List.mem_cons_self _ _)
    rw [List.map_cons, List.sum_cons, ih (fun q hq => hb q (List.mem_cons_of_mem _ hq))]
    have hsplit : (∑ c ∈ Finset.range n,
        (((m :: t).countP (fun m2 => m2.1 * size + m2.2 == c) : Nat) : ZMod 2) * F c) =
        (∑ c ∈ Finset.range n,
          ((t.countP (fun m2 => m2.1 * size + m2.2 == c) : Nat) : ZMod 2) * F c) +
        (∑ c ∈ Finset.range n,
          (if m.1 * size + m.2 = c then (1 : ZMod 2) else 0) * F c) := by
      rw [← Finset.sum_add_distrib]
      apply Finset.sum_congr rfl
      intro c _
      rw [List.countP_cons]
      by_cases he : m.1 * size + m.2 = c
      · rw [if_pos he, if_pos (by simpa using he)]
        push_cast
        ring
      · rw [if_neg he, if_neg (by simpa using he)]
        push_cast
        ring
    rw [hsplit]
    have hone : (∑ c ∈ Finset.range n,
        (if m.1 * size + m.2 = c then (1 : ZMod 2) else 0) * F c) =
        F (m.1 * size + m.2) := by
      rw [Finset.sum_eq_single_of_mem (m.1 * size + m.2) (Finset.mem_range.mpr hm)]
      · rw [if_pos rfl, one_mul]
      · intro c _ hne
        rw [if_neg (fun h => hne h.symm), zero_mul]
    rw [hone]
    ring

theorem solve_of_gf2_some (size : Nat) (g : Grid) (x : List Int)
    (h : solve_gf2 (build_transition_matrix size) g.join = some x) :
    solve size g =
      some ((x.enum.filter (fun p => p.2 == 1)).map (fun p => idx_to_pos size p.1)) := by
  simp only [solve, h]

/-- Any list of in-range presses applied to the all-off grid yields a
solvable grid: the press-count parities form a GF(2) solution. -/
theorem pressList_solvable (size : Nat) (hs : 0 < size) (ms : List (Nat × Nat))
    (hms : ∀ m ∈ ms, m.1 < size ∧ m.2 < size) :
    ∃ gf, applyMoves size (List.replicate size (List.replicate size (0 : Int))) ms =
        some gf ∧ ∃ mv, solve size gf = some mv := by
  obtain ⟨gf, hgf, hwgf, hcast⟩ :=
    applyMoves_cast size ms (List.replicate size (List.replicate size (0 : Int)))
      (init_grid_wf size) hms
  have hbitsgf : Bits gf :=
    applyMoves_some_bits size ms _ gf (init_grid_bits size) hgf
  refine ⟨gf, hgf, ?_⟩
  have hn : gf.join.length = size * size := join_length size gf hwgf
  have hA := build_shape size
  have hAlen : (build_transition_matrix size).length = gf.join.length := by
    rw [hA.1, hn]
  have hArows : ∀ r ∈ build_transition_matrix size, r.length = gf.join.length :=
    fun r hr => by rw [hA.2 r hr, hn]
  have hsys : SysSat gf.join.length (build_transition_matrix size) gf.join
      (fun c => ((ms.countP (fun m => m.1 * size + m.2 == c) : Nat) : ZMod 2)) := by
    intro r hr
    rw [hn] at hr
    obtain ⟨hir, hjr⟩ := row_lt_of_idx_lt size r hs hr
    have hdec : r / size * size + r % size = r := idx_decompose size r
    have hbjoin : gf.join.getD r 0 = cellv gf (r / size) (r % size) := by
      conv_lhs => rw [← hdec]
      exact join_getD size gf hwgf.2 (r / size) (r % size)
        (by rw [hwgf.1]; exact hir) hjr
    have hcell := hcast (r / size) (r % size) hir hjr
    rw [init_grid_cellv size _ _ hir hjr] at hcell
    simp only [Int.cast_zero, zero_add] at hcell
    have hmapeq : ms.map (fun m => if PressTarget size (m.1 : Int) (m.2 : Int)
        (r / size) (r % size) then (1 : ZMod 2) else 0) =
        ms.map (fun m =>
          (fun c => ((cellv (build_transition_matrix size) c r : Int) : ZMod 2))
            (m.1 * size + m.2)) := by
      apply List.map_congr_left
      intro m hm
      have hmb := hms m hm
      have hlt : m.1 * size + m.2 < size * size := enc_lt size m.1 m.2 hmb.1 hmb.2
      obtain ⟨hd, hmm⟩ := div_mod_encode size m.1 m.2 hmb.2
      simp only []
      rw [build_entry size hs (m.1 * size + m.2) r hlt hr, hd, hmm]
      by_cases hP : PressTarget size ((m.1 : Nat) : Int) ((m.2 : Nat) : Int)
          (r / size) (r % size)
      · rw [if_pos hP, if_pos hP]
        simp
      · rw [if_neg hP, if_neg hP]
        simp
    rw [hmapeq] at hcell
    rw [sum_map_enc size (size * size)
      (fun c => ((cellv (build_transition_matrix size) c r : Int) : ZMod 2)) ms
      (fun m hm => enc_lt size m.1 m.2 (hms m hm).1 (hms m hm).2)] at hcell
    have hsymm : (∑ c ∈ Finset.range (size * size),
        ((ms.countP (fun m => m.1 * size + m.2 == c) : Nat) : ZMod 2) *
          ((cellv (build_transition_matrix size) c r : Int) : ZMod 2)) =
        ∑ c ∈ Finset.range (size * size),
          ((cellv (build_transition_matrix size) r c : Int) : ZMod 2) *
            ((ms.countP (fun m => m.1 * size + m.2 == c) : Nat) : ZMod 2) := by
      apply Finset.sum_congr rfl
      intro c hc
      rw [Finset.mem_range] at hc
      have : cellv (build_transition_matrix size) c r =
          cellv (build_transition_matrix size) r c := by
        rw [build_entry size hs c r hc hr, build_entry size hs r c hr hc]
        by_cases hP : PressTarget size ((c / size : Nat) : Int) ((c % size : Nat) : Int)
            (r / size) (r % size)
        · rw [if_pos hP, if_pos ((pressTarget_symm size _ _ _ _).mp hP)]
        · rw [if_neg hP, if_neg (fun h => hP ((pressTarget_symm size _ _ _ _).mpr h))]
      rw [this]
      ring
    rw [hsymm] at hcell
    rw [hn, hbjoin, ← hcell]
  cases hres : solve_gf2 (build_transition_matrix size) gf.join with
  | none =>
    exfalso
    exact (solve_gf2_spec (build_transition_matrix size) gf.join hAlen hArows
      (build_bits size) (join_bits gf hbitsgf)).2 hres _ hsys
  | some x =>
    exact ⟨_, solve_of_gf2_some size gf x hres⟩

theorem foldlM_map_form (size : Nat) (f : Nat → Nat × Nat) :
    ∀ (l : List Nat) (g : Grid),
      l.foldlM (fun h k => apply_move size h ((f k).1 : Int) ((f k).2 : Int)) g =
        applyMoves size g (l.map f) := by
  intro l
  induction l with
  | nil => intro g; rfl
  | cons a t ih =>
    intro g
    unfold applyMoves
    rw [List.map_cons, List.foldlM_cons, List.foldlM_cons]
    cases h : apply_move size g ((f a).1 : Int) ((f a).2 : Int) with
    | none => rfl
    | some g1 =>
      simp only [Option.bind_eq_bind, Option.some_bind]
      have := ih g1
      unfold applyMoves at this
      exact this

/-- C2: for every size ≥ 1, every seed (including `None`) and every
ambient generator state, the generated puzzle exists (no `IndexError`)
and `solve` finds a move list for it — generation only presses in-range
cells starting from the all-off grid, so the press parities solve the
system. -/
theorem c2_generated_solvable (size : Nat) (hs : 1 ≤ size) (seed : Option Nat)
    (g0 : Nat → Nat) :
    ∃ g, (generate_random_puzzle size seed g0).1 = some g ∧
      ∃ mv, solve size g = some mv := by
  unfold generate_random_puzzle
  simp only []
  generalize (match seed with | some s => npSeedStream s | none => g0 : Nat → Nat) = st
  obtain ⟨gf, hgf, hsol⟩ := pressList_solvable size (by omega)
    ((List.range (randint 1 (size * size + 1) (st 0))).map
      (fun k => (randint 0 size (st (1 + 2 * k)), randint 0 size (st (2 + 2 * k)))))
    (by
      intro m hm
      rw [List.mem_map] at hm
      obtain ⟨k, _, hkm⟩ := hm
      rw [← hkm]
      unfold randint
      constructor <;> simp only [Nat.zero_add, Nat.sub_zero] <;>
        exact Nat.mod_lt _ (by omega))
  refine ⟨gf, ?_, hsol⟩
  rw [← foldlM_map_form size
    (fun k => (randint 0 size (st (1 + 2 * k)), randint 0 size (st (2 + 2 * k))))
    (List.range (randint 1 (size * size + 1) (st 0)))
    (List.replicate size (List.replicate size (0 : Int)))] at hgf
  simp only [] at hgf
  exact hgf

/-- C2 witness at `size = 1`, seed 0, arbitrary ambient stream. -/
theorem c2_witness :
    1 ≤ 1 ∧ ∃ g, (generate_random_puzzle 1 (some 0) (fun _ => 0)).1 = some g ∧
      ∃ mv, solve 1 g = some mv :=
  ⟨by decide, c2_generated_solvable 1 (by decide) (some 0) (fun _ => 0)⟩

/-- C9: `generate_random_puzzle` with a non-`None` seed is a function of
the seed and the solver size alone: the ambient global generator state
(which is all that can differ between two calls with the same seed) does
not influence the produced grid, because `np.random.seed` replaces it. -/
theorem c9_seed_determinism (size s : Nat) (g0 g1 : Nat → Nat) :
    (generate_random_puzzle size (some s) g0).1 =
      (generate_random_puzzle size (some s) g1).1 := rfl

end LightsOut
